import Mathlib

/-!
Verification of the qobs build engine (qobs-build/qobs).

This file shallowly embeds the parts of the source relevant to the build
planner, the incremental state store, the manifest section merge, the
feature resolver, the link-flag construction and the topological sort,
and proves (or refutes) the frozen specification claims about them.

The filesystem is modelled as a partial map from paths to content hashes;
Go maps are modelled as association lists (first binding wins on lookup,
as for repeated insertion of distinct keys); `slices.Sort` on strings is
modelled by sorting with the linear order on `String` (for a linear order
the sorted permutation of a list is unique, so the choice of algorithm is
irrelevant).
-/

namespace Qobs

/-! ### Association-list helpers (model of Go maps) -/

/-- Lookup in an association list, first binding wins (Go map access `m[k]`
for maps that never bind a key twice). -/
def alookup {α : Type} (m : List (String × α)) (k : String) : Option α :=
  match m with
  | [] => none
  | (k', v) :: rest => if k' = k then some v else alookup rest k

@[simp] theorem alookup_nil {α : Type} (k : String) : alookup ([] : List (String × α)) k = none := rfl

@[simp] theorem alookup_cons {α : Type} (k' k : String) (v : α) (rest : List (String × α)) :
    alookup ((k', v) :: rest) k = if k' = k then some v else alookup rest k := rfl

/-- Map update `m[k] = v`: overwrite the binding if present, else add it. -/
def aset {α : Type} (m : List (String × α)) (k : String) (v : α) : List (String × α) :=
  match m with
  | [] => [(k, v)]
  | (k', v') :: rest => if k' = k then (k, v) :: rest else (k', v') :: aset rest k v

@[simp] theorem aset_nil {α : Type} (k : String) (v : α) : aset [] k v = [(k, v)] := rfl

@[simp] theorem aset_cons {α : Type} (k' k : String) (v' v : α) (rest : List (String × α)) :
    aset ((k', v') :: rest) k v =
      if k' = k then (k, v) :: rest else (k', v') :: aset rest k v := rfl

theorem alookup_mem_keys {α : Type} {m : List (String × α)} {k : String} {v : α}
    (h : alookup m k = some v) : k ∈ m.map Prod.fst := by
  induction m with
  | nil => simp at h
  | cons p rest ih =>
    obtain ⟨k', v'⟩ := p
    by_cases hk : k' = k
    · subst hk; simp
    · simp only [alookup_cons, if_neg hk] at h
      simpa using Or.inr (ih h)

theorem alookup_none_not_mem {α : Type} {m : List (String × α)} {k : String}
    (h : alookup m k = none) : k ∉ m.map Prod.fst := by
  induction m with
  | nil => simp
  | cons p rest ih =>
    obtain ⟨k', v'⟩ := p
    by_cases hk : k' = k
    · simp [alookup_cons, hk] at h
    · simp only [alookup_cons, if_neg hk] at h
      simp only [List.map_cons, List.mem_cons]
      rintro (h1 | h1)
      · exact hk h1.symm
      · exact ih h h1

theorem length_filter_le_of_imp {α : Type} (l : List α) (p q : α → Bool)
    (h : ∀ a ∈ l, p a = true → q a = true) :
    (l.filter p).length ≤ (l.filter q).length := by
  induction l with
  | nil => simp
  | cons a rest ih =>
    have ih' := ih (fun b hb => h b (List.mem_cons_of_mem a hb))
    by_cases hp : p a = true
    · have hq := h a (List.mem_cons_self a rest) hp
      simp only [List.filter_cons, hp, hq, if_true, List.length_cons]
      omega
    · have hp' : p a = false := by simpa using hp
      simp only [List.filter_cons, hp']
      by_cases hq : q a = true
      · simp only [hq, if_true, List.length_cons, Bool.false_eq_true, if_false]
        omega
      · have hq' : q a = false := by simpa using hq
        simp only [hq', Bool.false_eq_true, if_false]
        exact ih'

theorem length_filter_lt_of_imp {α : Type} (l : List α) (p q : α → Bool) (x : α)
    (hx : x ∈ l) (hqx : q x = true) (hpx : p x = false)
    (h : ∀ a ∈ l, p a = true → q a = true) :
    (l.filter p).length < (l.filter q).length := by
  induction l with
  | nil => simp at hx
  | cons a rest ih =>
    have h' := fun b hb => h b (List.mem_cons_of_mem a hb)
    by_cases hax : a = x
    · subst hax
      have hle := length_filter_le_of_imp rest p q h'
      simp only [List.filter_cons, hpx, hqx, if_true, Bool.false_eq_true, if_false,
        List.length_cons]
      omega
    · have hx' : x ∈ rest := by
        rcases List.mem_cons.mp hx with h1 | h1
        · exact absurd h1.symm hax
        · exact h1
      have hrec := ih hx' h'
      by_cases hp : p a = true
      · have hq := h a (List.mem_cons_self a rest) hp
        simp only [List.filter_cons, hp, hq, if_true, List.length_cons]
        omega
      · have hp' : p a = false := by simpa using hp
        simp only [List.filter_cons, hp', Bool.false_eq_true, if_false]
        by_cases hq : q a = true
        · simp only [hq, if_true, List.length_cons]
          omega
        · have hq' : q a = false := by simpa using hq
          simp only [hq', Bool.false_eq_true, if_false]
          exact hrec

theorem filter_congr_of_agree {α : Type} (l : List α) (p q : α → Bool)
    (h : ∀ a ∈ l, p a = q a) : l.filter p = l.filter q :=
  List.filter_congr h

/-- Path join (`filepath.Join` on the host platform of interest). -/
def pjoin (a b : String) : String := a ++ "/" ++ b

/-! ### Data model of the incremental state store (`gen/qobsbuilder.go`) -/

/-- The filesystem as seen by the planner: a path either does not exist
(`none`) or has a SHA-256 content hash (`some h`).  `fileHash` in the
source memoises hashes in a per-run cache; since the map below is fixed
for a run the cache is semantically transparent and is not modelled. -/
structure FSModel where
  file : String → Option String

/-- A SHA-256 hex digest is never the empty string; environments satisfying
this match the source, where `oldState.Dependencies[depName]` yields `""`
exactly for absent keys. -/
def FSModel.hashesNonempty (fs : FSModel) : Prop :=
  ∀ p h, fs.file p = some h → h ≠ ""

/-- `BuildState` of `gen/qobsbuilder.go`: the per-target record persisted
in `qobs_build_state.json`. -/
structure BuildState where
  sources : List (String × String)
  dependencies : List (String × String)
  cflags : List String
  ldflags : List String
deriving DecidableEq, Repr

/-- `SourceFile` of the generator package. -/
structure SourceFile where
  src : String
  obj : String
  isCxx : Bool
deriving DecidableEq, Repr

/-- `buildUnit` of the generator package. -/
structure buildUnit where
  name : String
  isLib : Bool
  sources : List SourceFile
  dependencies : List String
  cflags : List String
  ldflags : List String
  basedir : String
deriving DecidableEq, Repr

instance : Inhabited buildUnit := ⟨⟨"", false, [], [], [], [], ""⟩⟩

/-- `compileJob` of `gen/qobsbuilder.go`. -/
structure compileJob where
  src : String
  obj : String
  cflags : List String
  isCxx : Bool
  cc : String
deriving DecidableEq, Repr

/-- `linkJob` of `gen/qobsbuilder.go`. -/
structure linkJob where
  name : String
  objs : List String
  deps : List String
  out : String
  ldflags : List String
  isLib : Bool
  isCxx : Bool
  cc : String
deriving DecidableEq, Repr

/-- The fields of `QobsBuilder` that the planner reads. -/
structure BuildEnv where
  cc : String
  cxx : String
  buildDir : String
  buildState : List (String × BuildState)
  fs : FSModel

/-! ### The planner (`QobsBuilder.planBuild` and helpers) -/

/-- `QobsBuilder.isSourceFileDirty`: a source file needs recompiling when
its object file is missing, there is no prior state for the target, or
its current content hash is absent from / different in the recorded state.
A source that cannot be hashed (while the object file exists and a state
record is present) is an error. -/
def isSourceFileDirty (g : BuildEnv) (src : SourceFile) (objPath : String)
    (state : Option BuildState) : Except String Bool :=
  if (g.fs.file objPath).isNone then .ok true
  else
    match state with
    | none => .ok true
    | some st =>
      match g.fs.file src.src with
      | none => .error ("source file " ++ src.src ++ " not found")
      | some hash =>
        match alookup st.sources src.src with
        | none => .ok true
        | some prevHash => .ok (decide (prevHash ≠ hash))

/-- The per-target compile-job collection loop inside `planBuild`. -/
def collectCompileJobs (g : BuildEnv) (t : buildUnit) (state : Option BuildState) :
    List SourceFile → Except String (List compileJob)
  | [] => .ok []
  | src :: rest => do
    let objPath := pjoin g.buildDir src.obj
    let isDirty ← isSourceFileDirty g src objPath state
    let jobs ← collectCompileJobs g t state rest
    if isDirty then
      .ok ({ src := src.src, obj := objPath, cflags := t.cflags, isCxx := src.isCxx,
             cc := if src.isCxx then g.cxx else g.cc } :: jobs)
    else
      .ok jobs

/-- The dependency loop inside `planBuild` (relink reason 3): an upstream
target was rebuilt in this run, its artifact is missing, or its current
hash is not the recorded one (`Dependencies[depName]` is `""` for an
absent key, as in Go). -/
def depNeedsRelink (g : BuildEnv) (state : Option BuildState) (rebuilt : List String) :
    List String → Bool
  | [] => false
  | d :: rest =>
    if d ∈ rebuilt then true
    else
      match g.fs.file (pjoin g.buildDir d) with
      | none => true
      | some hash =>
        match state with
        | none => true
        | some st =>
          if ((alookup st.dependencies d).getD "") ≠ hash then true
          else depNeedsRelink g state rebuilt rest

/-- `QobsBuilder.hasCxxInTarget`, with a recursion-depth budget: the source
recurses through the (acyclic, by the time the planner runs) dependency
graph; `fuel` larger than the number of targets subsumes every acyclic
chain. -/
def hasCxxInTarget (targets : List (String × buildUnit)) : Nat → buildUnit → Bool
  | 0, _ => false
  | fuel + 1, t =>
    t.sources.any (·.isCxx) ||
      t.dependencies.any (fun d =>
        match alookup targets d with
        | some dt => hasCxxInTarget targets fuel dt
        | none => false)

/-- `QobsBuilder.createLinkJob` (the source's error return is always `nil`). -/
def createLinkJob (g : BuildEnv) (targets : List (String × buildUnit)) (t : buildUnit) : linkJob :=
  { name := t.name
    objs := t.sources.map (fun s => pjoin g.buildDir s.obj)
    deps := t.dependencies.map (fun d => pjoin g.buildDir d)
    out := pjoin g.buildDir t.name
    ldflags := t.ldflags
    isLib := t.isLib
    isCxx := hasCxxInTarget targets (targets.length + 1) t
    cc := if hasCxxInTarget targets (targets.length + 1) t then g.cxx else g.cc }

/-- One iteration of the `planBuild` target loop: the compile jobs of the
target together with its relink decision. -/
def planTarget (g : BuildEnv) (rebuilt : List String) (t : buildUnit) :
    Except String (List compileJob × Bool) := do
  let oldState := alookup g.buildState t.name
  let r1 := (g.fs.file (pjoin g.buildDir t.name)).isNone
  let r2 :=
    match oldState with
    | some st => decide (st.cflags ≠ t.cflags) || decide (st.ldflags ≠ t.ldflags)
    | none => false
  let r3 := depNeedsRelink g oldState rebuilt t.dependencies
  let cjs ← collectCompileJobs g t oldState t.sources
  .ok (cjs, r1 || r2 || r3 || decide (cjs ≠ []))

/-- `QobsBuilder.planBuild`: fold the per-target step over the
topologically sorted target names, threading the set of targets relinked
so far through the dependency checks. -/
def planBuild (g : BuildEnv) (targets : List (String × buildUnit)) (rebuilt : List String) :
    List String → Except String (List compileJob × List linkJob)
  | [] => .ok ([], [])
  | n :: rest => do
    let t := (alookup targets n).getD default
    let (cjs, needsRelink) ← planTarget g rebuilt t
    if needsRelink then
      let lj := createLinkJob g targets t
      let (cs, ls) ← planBuild g targets (rebuilt ++ [t.name]) rest
      .ok (cjs ++ cs, lj :: ls)
    else
      let (cs, ls) ← planBuild g targets rebuilt rest
      .ok (cjs ++ cs, ls)

/-! ### Topological sort (`QobsBuilder.topologicalSortTargets`) -/

/-- The two error shapes of `topologicalSortTargets`. -/
inductive TopoError where
  | missingDep (name dep : String)
  | cycle (nodes : List String)
deriving DecidableEq, Repr

/-- `slices.Sort` on a string slice.  For a linear order the sorted
permutation of a list is unique, so any sorting algorithm is a faithful
model. -/
def sortStr (l : List String) : List String := List.insertionSort (· ≤ ·) l

/-- Pointwise decrement of one key (`inDegree[v]--`). -/
def adecr (m : List (String × Int)) (k : String) : List (String × Int) :=
  m.map (fun p => if p.1 = k then (p.1, p.2 - 1) else p)

/-- Pointwise increment of one key (`inDegree[name]++`). -/
def aincr (m : List (String × Int)) (k : String) : List (String × Int) :=
  m.map (fun p => if p.1 = k then (p.1, p.2 + 1) else p)

/-- Append to one key's list (`graph[depName] = append(graph[depName], name)`). -/
def aappend (m : List (String × List String)) (k : String) (x : String) :
    List (String × List String) :=
  m.map (fun p => if p.1 = k then (p.1, p.2 ++ [x]) else p)

/-- The inner edge-insertion loop of the graph construction: for each
dependency of `name`, check it is a known target, reverse-edge it into the
graph and bump `name`'s in-degree. -/
def addEdges (targets : List (String × buildUnit)) (name : String) :
    List String → List (String × List String) × List (String × Int) →
    Except TopoError (List (String × List String) × List (String × Int))
  | [], gi => .ok gi
  | d :: rest, (graph, inDeg) =>
    if (alookup targets d).isSome then
      addEdges targets name rest (aappend graph d name, aincr inDeg name)
    else
      .error (.missingDep name d)

/-- The outer graph-construction loop over all targets. -/
def buildGraphAux (targets : List (String × buildUnit)) :
    List (String × buildUnit) → List (String × List String) × List (String × Int) →
    Except TopoError (List (String × List String) × List (String × Int))
  | [], gi => .ok gi
  | (name, t) :: rest, gi => do
    let gi' ← addEdges targets name t.dependencies gi
    buildGraphAux targets rest gi'

/-- Sum of the positive parts of the in-degree table; the termination
measure of the Kahn queue loop. -/
def measureInDeg (m : List (String × Int)) : Nat :=
  (m.map (fun p => p.2.toNat)).sum

/-- The relaxation loop over the (sorted) out-edge list of the popped
node: decrement each dependent's in-degree and enqueue it when the
in-degree reaches zero. -/
def relax : List String → List (String × Int) → List String →
    List (String × Int) × List String
  | [], m, q => (m, q)
  | v :: vs, m, q =>
    let m' := adecr m v
    relax vs m' (if alookup m' v = some 0 then q ++ [v] else q)

@[simp] theorem adecr_nil (v : String) : adecr [] v = [] := rfl

@[simp] theorem adecr_cons (p : String × Int) (rest : List (String × Int)) (v : String) :
    adecr (p :: rest) v = (if p.1 = v then (p.1, p.2 - 1) else p) :: adecr rest v := rfl

@[simp] theorem measureInDeg_nil : measureInDeg [] = 0 := rfl

@[simp] theorem measureInDeg_cons (p : String × Int) (rest : List (String × Int)) :
    measureInDeg (p :: rest) = p.2.toNat + measureInDeg rest := rfl

theorem alookup_adecr (m : List (String × Int)) (v : String) (c : Int)
    (h : alookup (adecr m v) v = some c) : alookup m v = some (c + 1) := by
  induction m with
  | nil => simp at h
  | cons p rest ih =>
    obtain ⟨k, x⟩ := p
    by_cases hk : k = v
    · subst hk
      rw [adecr_cons, if_pos rfl, alookup_cons, if_pos rfl] at h
      rw [alookup_cons, if_pos rfl]
      injection h with h
      exact congrArg some (by omega)
    · simp only [adecr_cons, if_neg hk] at h
      simp only [alookup_cons, if_neg hk] at h ⊢
      exact ih h

theorem measureInDeg_adecr_le (m : List (String × Int)) (v : String) :
    measureInDeg (adecr m v) ≤ measureInDeg m := by
  induction m with
  | nil => simp
  | cons p rest ih =>
    obtain ⟨k, x⟩ := p
    by_cases hk : k = v
    · simp only [adecr_cons, if_pos hk, measureInDeg_cons]
      have : (x - 1).toNat ≤ x.toNat := by omega
      omega
    · simp only [adecr_cons, if_neg hk, measureInDeg_cons]
      omega

theorem measureInDeg_adecr_lt (m : List (String × Int)) (v : String) (d : Int)
    (hl : alookup m v = some d) (hd : 0 < d) :
    measureInDeg (adecr m v) < measureInDeg m := by
  induction m with
  | nil => simp at hl
  | cons p rest ih =>
    obtain ⟨k, x⟩ := p
    by_cases hk : k = v
    · simp only [alookup_cons, if_pos hk] at hl
      injection hl with hl
      simp only [adecr_cons, if_pos hk, measureInDeg_cons]
      have h1 : (x - 1).toNat < x.toNat := by omega
      have h2 := measureInDeg_adecr_le rest v
      omega
    · simp only [alookup_cons, if_neg hk] at hl
      simp only [adecr_cons, if_neg hk, measureInDeg_cons]
      have := ih hl
      omega

theorem relax_measure (vs : List String) :
    ∀ m q, measureInDeg (relax vs m q).1 + (relax vs m q).2.length ≤
      measureInDeg m + q.length := by
  induction vs with
  | nil => intro m q; simp [relax]
  | cons v vs ih =>
    intro m q
    simp only [relax]
    by_cases hz : alookup (adecr m v) v = some 0
    · simp only [if_pos hz]
      have h1 := ih (adecr m v) (q ++ [v])
      have h2 : alookup m v = some 1 := by simpa using alookup_adecr m v 0 hz
      have h3 := measureInDeg_adecr_lt m v 1 h2 (by omega)
      calc measureInDeg (relax vs (adecr m v) (q ++ [v])).1 +
            (relax vs (adecr m v) (q ++ [v])).2.length
          ≤ measureInDeg (adecr m v) + (q ++ [v]).length := h1
        _ = measureInDeg (adecr m v) + q.length + 1 := by simp [Nat.add_assoc]
        _ ≤ measureInDeg m + q.length := by omega
    · simp only [if_neg hz]
      have h1 := ih (adecr m v) q
      have h3 := measureInDeg_adecr_le m v
      omega

theorem kahn_dec (adj : List String) (inDeg : List (String × Int)) (u : String)
    (rest : List String) :
    measureInDeg (relax adj inDeg rest).1 + (relax adj inDeg rest).2.length <
      measureInDeg inDeg + (u :: rest).length := by
  have h := relax_measure adj inDeg rest
  simp only [List.length_cons]
  omega

/-- The Kahn queue loop: pop, record, sort the out-edges, relax.  Returns
the topological order found and the final in-degree table (from which the
cycle report is produced). -/
def kahnLoop (graph : List (String × List String)) (queue : List String)
    (inDeg : List (String × Int)) (order : List String) :
    List String × List (String × Int) :=
  match queue with
  | [] => (order, inDeg)
  | u :: rest =>
    kahnLoop graph (relax (sortStr ((alookup graph u).getD [])) inDeg rest).2
      (relax (sortStr ((alookup graph u).getD [])) inDeg rest).1 (order ++ [u])
termination_by measureInDeg inDeg + queue.length
decreasing_by
  exact kahn_dec _ _ _ _

/-- `QobsBuilder.topologicalSortTargets`. -/
def topologicalSortTargets (targets : List (String × buildUnit)) :
    Except TopoError (List String) := do
  let graph0 := targets.map (fun p => (p.1, ([] : List String)))
  let inDeg0 := targets.map (fun p => (p.1, (0 : Int)))
  let (graph, inDeg) ← buildGraphAux targets targets (graph0, inDeg0)
  let queue0 := sortStr ((inDeg.filter (fun p => decide (p.2 = 0))).map (·.1))
  let (order, inDegF) := kahnLoop graph queue0 inDeg []
  if order.length = targets.length then .ok order
  else .error (.cycle (sortStr ((inDegF.filter (fun p => decide (0 < p.2))).map (·.1))))

/-! ### The state store update (`QobsBuilder.updateBuildState`) -/

/-- The source-hashing loop of `updateBuildState`; an unhashable source is
an error (reported as a warning by the caller, which then skips the
record update). -/
def hashSources (fs : FSModel) : List SourceFile → Except String (List (String × String))
  | [] => .ok []
  | s :: rest =>
    match fs.file s.src with
    | none => .error ("failed to hash source file " ++ s.src)
    | some h => do
      let r ← hashSources fs rest
      .ok ((s.src, h) :: r)

/-- The dependency-hashing loop of `updateBuildState`: an unhashable
dependency artifact is skipped (with a warning), so the next run treats
it as changed. -/
def hashDeps (fs : FSModel) (buildDir : String) : List String → List (String × String)
  | [] => []
  | d :: rest =>
    match fs.file (pjoin buildDir d) with
    | none => hashDeps fs buildDir rest
    | some h => (d, h) :: hashDeps fs buildDir rest

/-- `QobsBuilder.updateBuildState`: rebuild the target's record by
rehashing sources and upstream artifacts and cloning the flag lists. -/
def updateBuildState (fs : FSModel) (buildDir : String) (t : buildUnit) :
    Except String BuildState := do
  let srcs ← hashSources fs t.sources
  .ok { sources := srcs
        dependencies := hashDeps fs buildDir t.dependencies
        cflags := t.cflags
        ldflags := t.ldflags }

/-! ### The build invocation (`QobsBuilder.Invoke`) -/

/-- The contents of `qobs_build_state.json` before the run, as observed
through `loadBuildState`: absent; present but unreadable (`os.Open`
fails with an error other than not-exist); corrupt, carrying the
per-target records that `json.Decode` had already written into the
pre-existing `buildState` map before returning its error
(`encoding/json` completes the unmarshalling as best it can on a type
error, so records decoded before the offending value survive; a
top-level syntax error yields no records, i.e. `kept = []`); or a fully
valid record map. -/
inductive StateFile where
  | missing
  | unreadable
  | corrupt (kept : List (String × BuildState))
  | valid (m : List (String × BuildState))

/-- `QobsBuilder.loadBuildState` as observed by `Invoke`: an absent file
returns `nil` (state left empty, no warning); an unreadable file returns
the open error with the state still empty; a decode error leaves the
partially decoded records in the state map and returns the error; a
valid file loads the map.  The second component is the warning `Invoke`
prints exactly when an error is returned. -/
def loadBuildState : StateFile → List (String × BuildState) × List String
  | .missing => ([], [])
  | .unreadable => ([], ["failed to load build state"])
  | .corrupt kept => (kept, ["failed to load build state"])
  | .valid m => (m, [])

/-- Rendering of `topologicalSortTargets` errors (the `fmt.Errorf` texts). -/
def renderTopoError : TopoError → String
  | .missingDep name dep =>
    "target " ++ name ++ " lists a non-existent dependency: " ++ dep
  | .cycle _ => "dependency cycle detected involving targets"

/-- The post-link state-update loop of `executeBuild`: update the record of
every target that was linked; failures only warn. -/
def updateStates (fs : FSModel) (buildDir : String) (targets : List (String × buildUnit))
    (stateMap : List (String × BuildState)) :
    List linkJob → List (String × BuildState) × List String
  | [] => (stateMap, [])
  | j :: rest =>
    match alookup targets j.name with
    | none => updateStates fs buildDir targets stateMap rest
    | some t =>
      match updateBuildState fs buildDir t with
      | .error _ =>
        let (m, w) := updateStates fs buildDir targets stateMap rest
        (m, ("failed to update build state for target " ++ t.name) :: w)
      | .ok st => updateStates fs buildDir targets (aset stateMap t.name st) rest

/-- The phrase the no-op build prints. -/
def noWorkPhrase : String := "no work to do."

/-- The observable end of a successful invocation: either the no-work
message (with the printed line) or the executed jobs. -/
inductive InvokeEnd where
  | noWork (line : String)
  | built (cjs : List compileJob) (ljs : List linkJob)
deriving DecidableEq, Repr

/-- `QobsBuilder.Invoke`: load state (warn on failure), topologically sort,
plan, print the no-work line when the plan is empty, otherwise execute
(modelled by the `execOk` oracle for the external compiler and linker
processes), update records, save state (warn on failure). -/
def invokeModel (cc cxx buildDir : String) (targets : List (String × buildUnit))
    (stateFile : StateFile) (fs : FSModel) (execOk : Bool) (saveOk : Bool) :
    Except String InvokeEnd × List String :=
  let loaded := loadBuildState stateFile
  match topologicalSortTargets targets with
  | .error e => (.error (renderTopoError e), loaded.2)
  | .ok names =>
    let g : BuildEnv := ⟨cc, cxx, buildDir, loaded.1, fs⟩
    match planBuild g targets [] names with
    | .error e => (.error ("build planning failed: " ++ e), loaded.2)
    | .ok (cjs, ljs) =>
      if cjs.isEmpty && ljs.isEmpty then
        (.ok (.noWork ("qobs: " ++ noWorkPhrase)), loaded.2)
      else if execOk then
        let upd := updateStates fs buildDir targets loaded.1 ljs
        let saveWarn := if saveOk then [] else ["failed to save build state"]
        (.ok (.built cjs ljs), loaded.2 ++ upd.2 ++ saveWarn)
      else
        (.error "build failed", loaded.2)

/-! ### Manifest section merge (`config.go`: `mergeStructs`) -/

/-- One struct field as the reflection in `mergeStructs` sees it: a slice,
a map, a bool, or a remaining scalar kind (string or integer here). -/
inductive FieldVal where
  | seq (xs : List String)
  | mp (m : List (String × String))
  | flag (b : Bool)
  | str (s : String)
  | int (n : Int)
deriving DecidableEq, Repr

/-- `dstField.SetMapIndex(key, value)` on the association-list model of a
Go map.  The list is kept at the key-sorted representative, which is a
canonical choice for the unordered Go map; lookups agree with in-place
overwrite-or-add. -/
def mapInsert (m : List (String × String)) (k v : String) : List (String × String) :=
  match m with
  | [] => [(k, v)]
  | (k', v') :: rest =>
    if k = k' then (k, v) :: rest
    else if k < k' then (k, v) :: (k', v') :: rest
    else (k', v') :: mapInsert rest k v

/-- The map branch of `mergeStructs`: every entry of the source map is set
in the destination map (overwriting colliding keys). -/
def mergeMap (dst src : List (String × String)) : List (String × String) :=
  src.foldl (fun acc p => mapInsert acc p.1 p.2) dst

/-- The `switch dstField.Kind()` of `mergeStructs`, on one field:
slices append, maps merge entry-wise, booleans disjoin, other scalars are
overwritten only by a non-zero source (`IsZero` is `""` for strings and
`0` for integers).  Field kinds always agree because source and
destination have the same struct type. -/
def mergeField : FieldVal → FieldVal → FieldVal
  | .seq d, .seq s => .seq (d ++ s)
  | .mp d, .mp s => .mp (mergeMap d s)
  | .flag d, .flag s => .flag (d || s)
  | .str d, .str s => if s ≠ "" then .str s else .str d
  | .int d, .int s => if s ≠ 0 then .int s else .int d
  | d, _ => d

/-- `mergeStructs`: fold the per-field merge over the field lists of the
two structs (they have the same shape). -/
def mergeStructs (dst src : List FieldVal) : List FieldVal :=
  List.zipWith mergeField dst src

/-- `TargetSection` of `config.go`, with the Go map of defines as an
association list. -/
structure TargetSection where
  lib : Bool
  sources : List String
  headers : List String
  defines : List (String × String)
  links : List String
  cflags : List String
deriving DecidableEq, Repr

/-- The reflection view of a `TargetSection`, in field order. -/
def TargetSection.toFields (t : TargetSection) : List FieldVal :=
  [.flag t.lib, .seq t.sources, .seq t.headers, .mp t.defines, .seq t.links, .seq t.cflags]

/-- Rebuild a `TargetSection` from its reflection view. -/
def TargetSection.ofFields (dflt : TargetSection) : List FieldVal → TargetSection
  | [.flag lib, .seq sources, .seq headers, .mp defines, .seq links, .seq cflags] =>
    ⟨lib, sources, headers, defines, links, cflags⟩
  | _ => dflt

/-- `mergeStructs` applied at type `TargetSection` (the only section type
the source ever merges, since the other conditional sections are maps). -/
def mergeTargetSection (dst src : TargetSection) : TargetSection :=
  TargetSection.ofFields dst (mergeStructs dst.toFields src.toFields)

/-! ### Conditional sub-sections (`config.go`: `unmarshalConditionalSection`) -/

/-- A value of the expression language as `unmarshalConditionalSection`
observes it through `result.(bool)`. -/
inductive EValue where
  | vbool (b : Bool)
  | vstr (s : String)
  | vint (n : Int)
deriving DecidableEq, Repr

/-- The expression evaluator (`expr-lang`, an external library): whether a
key compiles as an expression, and what running it yields.  Compilation is
deterministic, so the second compile of a classified key cannot fail. -/
structure Evaluator where
  compiles : String → Bool
  run : String → Except String EValue

/-- A raw value of a section key: a sub-table (with its decoded typed
form) or any other TOML value. -/
inductive RawVal (T : Type) where
  | table (t : T)
  | plain

/-- The classification loop of `unmarshalConditionalSection`: keys whose
value is a table and whose text compiles as an expression are conditional
sub-sections (in map iteration order); everything else belongs to the
base. -/
def condEntries {T : Type} (ev : Evaluator) (entries : List (String × RawVal T)) :
    List (String × T) :=
  entries.filterMap (fun p =>
    match p.2 with
    | .table t => if ev.compiles p.1 then some (p.1, t) else none
    | .plain => none)

/-- The evaluation-and-merge loop of `unmarshalConditionalSection`: run
each conditional key; a run error aborts; a result that is not the boolean
`true` (whether `false` or a non-boolean value) skips the sub-section;
`true` merges it into the accumulated section. -/
def runConds {T : Type} (ev : Evaluator) (merge : T → T → T) :
    T → List (String × T) → Except String T
  | dst, [] => .ok dst
  | dst, (k, t) :: rest =>
    match ev.run k with
    | .error e => .error ("failed to run expression for " ++ k ++ ": " ++ e)
    | .ok v =>
      if v = .vbool true then runConds ev merge (merge dst t) rest
      else runConds ev merge dst rest

/-- `unmarshalConditionalSection`: classify, then evaluate and merge the
conditional sub-sections into the (already unmarshalled) base. -/
def unmarshalConditionalSection {T : Type} (ev : Evaluator) (merge : T → T → T)
    (base : T) (entries : List (String × RawVal T)) : Except String T :=
  runConds ev merge base (condEntries ev entries)

/-- The `[target]` section pass of `ParseConfig` (the remaining conditional
sections are maps, for which a truthy sub-section would make
`mergeStructs` reject the non-struct destination). -/
def parseConfigTarget (ev : Evaluator) (base : TargetSection)
    (entries : List (String × RawVal TargetSection)) : Except String TargetSection :=
  unmarshalConditionalSection ev mergeTargetSection base entries

/-! ### Feature resolution (`config.go`: `FeaturesSection.ResolveFeatures`) -/

/-- Split a character list at the first slash. -/
def splitAtSlash : List Char → Option (List Char × List Char)
  | [] => none
  | c :: rest =>
    if c = '/' then some ([], rest)
    else
      match splitAtSlash rest with
      | none => none
      | some (a, b) => some (c :: a, b)

/-- `strings.SplitN(feature, "/", 2)` restricted to the two-part case:
`some (before, after)` when the string contains a slash. -/
def splitDepFeature (s : String) : Option (String × String) :=
  (splitAtSlash s.data).map (fun p => (String.mk p.1, String.mk p.2))

/-- `depFeatures[depName] = append(depFeatures[depName], featureName)`,
guarded by the `slices.Contains` check. -/
def addDepFeature (deps : List (String × List String)) (a b : String) :
    List (String × List String) :=
  let cur := (alookup deps a).getD []
  if b ∈ cur then deps else aset deps a (cur ++ [b])

/-- Lexicographic step for the worklist measures: expanding a fresh
element of the key set strictly shrinks the unexpanded-key count. -/
theorem lex_step_left (keys own : List String) (x : String) (m n : Nat)
    (hx : x ∈ keys) (hox : x ∉ own) :
    Prod.Lex (· < ·) (· < ·)
      ((keys.filter (fun k => decide (k ∉ own ++ [x]))).length, m)
      ((keys.filter (fun k => decide (k ∉ own))).length, n) := by
  apply Prod.Lex.left
  apply length_filter_lt_of_imp (x := x) _ _ _ hx
  · simpa using hox
  · simp
  · intro a _ ha
    simp only [decide_eq_true_eq] at ha ⊢
    intro hmem
    exact ha (by simp [hmem])

/-- Lexicographic step for the worklist measures: excluding a name outside
the key set leaves the count unchanged, so a shrinking queue suffices. -/
theorem lex_step_congr (keys own : List String) (x : String) (m n : Nat)
    (hx : x ∉ keys) (hmn : m < n) :
    Prod.Lex (· < ·) (· < ·)
      ((keys.filter (fun k => decide (k ∉ own ++ [x]))).length, m)
      ((keys.filter (fun k => decide (k ∉ own))).length, n) := by
  rw [filter_congr_of_agree keys
    (fun k => decide (k ∉ own ++ [x])) (fun k => decide (k ∉ own))]
  · exact Prod.Lex.right _ hmn
  · intro a ha
    have hax : a ≠ x := fun h => hx (h ▸ ha)
    simp [hax]

/-- The worklist loop of `ResolveFeatures`.  Termination: expanding a new
own-feature shrinks the set of unexpanded feature-graph keys, every other
step shrinks the queue. -/
def resolveLoop (f : List (String × List String)) :
    List String → List String → List (String × List String) →
    List String × List (String × List String)
  | [], own, deps => (own, deps)
  | x :: rest, own, deps =>
    match splitDepFeature x with
    | some (a, b) => resolveLoop f rest own (addDepFeature deps a b)
    | none =>
      if x ∈ own then resolveLoop f rest own deps
      else
        match hl : alookup f x with
        | some subs => resolveLoop f (rest ++ subs) (own ++ [x]) deps
        | none => resolveLoop f rest (own ++ [x]) deps
termination_by queue own _ =>
  ((((f.map Prod.fst).filter (fun k => decide (k ∉ own))).length, queue.length) : Nat × Nat)
decreasing_by
  · exact Prod.Lex.right _ (by simp)
  · exact Prod.Lex.right _ (by simp)
  · exact lex_step_left _ _ _ _ _ (alookup_mem_keys (by assumption)) (by assumption)
  · exact lex_step_congr _ _ _ _ _ (alookup_none_not_mem (by assumption)) (by simp)

/-- `FeaturesSection.ResolveFeatures`: seed the worklist with the
requested features, plus the `default` feature entries when
default-features is in effect; run the loop from empty outputs. -/
def resolveFeatures (f : List (String × List String)) (requested : List String)
    (useDefault : Bool) : List String × List (String × List String) :=
  let queue := requested ++ (if useDefault then (alookup f "default").getD [] else [])
  resolveLoop f queue [] []

/-! ### Link-flag construction (`Builder.Build`) -/

/-- The slice of a resolved `Package` that the link-flag construction
reads: its target's declared links and the names of its dependencies (the
keys of `Config.Dependencies`, in some iteration order). -/
structure Package where
  links : List String
  dependencies : List String
deriving DecidableEq, Repr

/-- The `collectLinks` closure of `Builder.Build`, in explicit-stack form
(children pushed in front of the remaining work, which preserves the
recursive emission order): mark the popped name, emit `-l` flags for its
links, then descend into its dependencies; a name already seen, or absent
from the package map, emits nothing. -/
def collectLinks (packages : List (String × Package)) (seen : List String) :
    List String → List String
  | [] => []
  | n :: rest =>
    if n ∈ seen then collectLinks packages seen rest
    else
      match hl : alookup packages n with
      | none => collectLinks packages (seen ++ [n]) rest
      | some dep =>
        (dep.links.map (fun lib => "-l" ++ lib)) ++
          collectLinks packages (seen ++ [n]) (dep.dependencies ++ rest)
termination_by stack =>
  ((((packages.map Prod.fst).filter (fun k => decide (k ∉ seen))).length, stack.length) :
    Nat × Nat)
decreasing_by
  · exact Prod.Lex.right _ (by simp)
  · exact lex_step_congr _ _ _ _ _ (alookup_none_not_mem (by assumption)) (by simp)
  · exact lex_step_left _ _ _ _ _ (alookup_mem_keys (by assumption)) (by assumption)

/-- The ldflags assembly of `Builder.Build` for one package: the links
collected from the dependency traversal, then `-l` flags for the
package's own links. -/
def buildLdflags (packages : List (String × Package)) (pkg : Package) : List String :=
  collectLinks packages [] pkg.dependencies ++ pkg.links.map (fun lib => "-l" ++ lib)

/-! ### Lemmas about the map model -/

theorem alookup_eq_none_of_not_mem {α : Type} {m : List (String × α)} {k : String}
    (h : k ∉ m.map Prod.fst) : alookup m k = none := by
  induction m with
  | nil => rfl
  | cons p rest ih =>
    obtain ⟨k', v'⟩ := p
    simp only [List.map_cons, List.mem_cons] at h
    push_neg at h
    rw [alookup_cons, if_neg (fun hh : k' = k => h.1 hh.symm)]
    exact ih h.2

theorem alookup_mapInsert (m : List (String × String)) (k v : String) (k' : String) :
    alookup (mapInsert m k v) k' = if k = k' then some v else alookup m k' := by
  induction m with
  | nil => simp [mapInsert]
  | cons p rest ih =>
    obtain ⟨k0, v0⟩ := p
    simp only [mapInsert]
    by_cases h1 : k = k0
    · subst h1
      by_cases h2 : k = k'
      · simp [h2]
      · simp [alookup_cons, h2]
    · by_cases h3 : k < k0
      · simp only [if_neg h1, if_pos h3]
        by_cases h2 : k = k'
        · subst h2
          have : k0 ≠ k := fun h => h1 h.symm
          simp [alookup_cons, this]
        · simp [alookup_cons, h2]
      · simp only [if_neg h1, if_neg h3, alookup_cons]
        by_cases h4 : k0 = k'
        · subst h4
          simp [ih, h1]
        · simp [alookup_cons, h4, ih]

theorem alookup_mergeMap (s : List (String × String)) :
    ∀ d : List (String × String), (s.map Prod.fst).Nodup →
      ∀ k, alookup (mergeMap d s) k = (alookup s k).or (alookup d k) := by
  induction s with
  | nil => intro d _ k; simp [mergeMap]
  | cons p s' ih =>
    intro d hnd k
    obtain ⟨k0, v0⟩ := p
    simp only [List.map_cons, List.nodup_cons] at hnd
    have step : mergeMap d ((k0, v0) :: s') = mergeMap (mapInsert d k0 v0) s' := rfl
    rw [step, ih (mapInsert d k0 v0) hnd.2 k, alookup_mapInsert]
    by_cases h2 : k0 = k
    · subst h2
      have hn : alookup s' k0 = none := alookup_eq_none_of_not_mem hnd.1
      simp [alookup_cons, hn]
    · simp [alookup_cons, h2]

/-! ### Claim theorems -/

/-- C3.  When a truthy conditional sub-section is merged into a section's
base, every field is combined by exactly these rules: sequence fields
append (duplicates preserved); mapping fields add the source's entries,
overwriting on key collision (stated by lookup); boolean fields disjoin;
any other scalar field is overwritten by the source only when the source
value is non-zero.  The final conjunct pins the "truthy" trigger: the
conditional-section loop merges precisely on a boolean `true` result. -/
theorem mergeStructs_field_rules (d s : TargetSection)
    (hnd : (s.defines.map Prod.fst).Nodup) :
    (mergeTargetSection d s).lib = (d.lib || s.lib) ∧
    (mergeTargetSection d s).sources = d.sources ++ s.sources ∧
    (mergeTargetSection d s).headers = d.headers ++ s.headers ∧
    (mergeTargetSection d s).links = d.links ++ s.links ∧
    (mergeTargetSection d s).cflags = d.cflags ++ s.cflags ∧
    (∀ k, alookup (mergeTargetSection d s).defines k =
      ((alookup s.defines k).or (alookup d.defines k))) ∧
    (∀ a b : String, mergeField (.str a) (.str b) = if b ≠ "" then .str b else .str a) ∧
    (∀ a b : Int, mergeField (.int a) (.int b) = if b ≠ 0 then .int b else .int a) ∧
    (∀ (ev : Evaluator) (base : TargetSection) (k : String) (t : TargetSection)
       (rest : List (String × TargetSection)), ev.run k = .ok (.vbool true) →
       runConds ev mergeTargetSection base ((k, t) :: rest) =
         runConds ev mergeTargetSection (mergeTargetSection base t) rest) := by
  refine ⟨rfl, rfl, rfl, rfl, rfl, ?_, ?_, ?_, ?_⟩
  · intro k
    exact alookup_mergeMap s.defines d.defines hnd k
  · intro a b; rfl
  · intro a b; rfl
  · intro ev base k t rest hrun
    simp [runConds, hrun]

/-- Witness for C3 at concrete sections. -/
theorem mergeStructs_field_rules_witness :
    ((([("B", "2")] : List (String × String)).map Prod.fst).Nodup) ∧
    (mergeTargetSection ⟨false, ["s1"], [], [("A", "1")], ["x"], []⟩
        ⟨true, ["s2"], [], [("B", "2")], ["y"], []⟩).lib = (false || true) :=
  ⟨by decide,
   (mergeStructs_field_rules ⟨false, ["s1"], [], [("A", "1")], ["x"], []⟩
     ⟨true, ["s2"], [], [("B", "2")], ["y"], []⟩ (by decide)).1⟩

/-- Extensional equality of target sections: Go slices are ordered, Go
maps are unordered, so the defines map is compared by lookup. -/
def TargetSection.equivS (a b : TargetSection) : Prop :=
  a.lib = b.lib ∧ a.sources = b.sources ∧ a.headers = b.headers ∧
  a.links = b.links ∧ a.cflags = b.cflags ∧
  ∀ k, alookup a.defines k = alookup b.defines k

/-- C7 counterexample.  Two truthy conditional sub-sections with no
mapping keys at all (hence no mapping-key collision), each contributing
one link: merged in the two possible visit orders the final sections
differ, because sequence fields append. -/
theorem conditional_merge_order_counterexample :
    parseConfigTarget ⟨fun _ => true, fun _ => .ok (.vbool true)⟩
        ⟨false, [], [], [], [], []⟩
        [("c1", .table ⟨false, [], [], [], ["a"], []⟩),
         ("c2", .table ⟨false, [], [], [], ["b"], []⟩)] =
      .ok ⟨false, [], [], [], ["a", "b"], []⟩ ∧
    parseConfigTarget ⟨fun _ => true, fun _ => .ok (.vbool true)⟩
        ⟨false, [], [], [], [], []⟩
        [("c2", .table ⟨false, [], [], [], ["b"], []⟩),
         ("c1", .table ⟨false, [], [], [], ["a"], []⟩)] =
      .ok ⟨false, [], [], [], ["b", "a"], []⟩ ∧
    (⟨false, [], [], [], ["a", "b"], []⟩ : TargetSection) ≠
      ⟨false, [], [], [], ["b", "a"], []⟩ ∧
    ¬ TargetSection.equivS ⟨false, [], [], [], ["a", "b"], []⟩
      ⟨false, [], [], [], ["b", "a"], []⟩ := by
  refine ⟨rfl, rfl, by decide, ?_⟩
  intro h
  have := h.2.2.2.1
  simp at this

/-- C7, amended.  With the additional (counterexample-forced) hypothesis
that each sequence-valued field is contributed by at most one of the two
truthy sub-sections, merging in either order yields the same final
section value (slices as ordered lists, the defines map extensionally). -/
theorem conditional_merge_order_amended (ev : Evaluator) (k1 k2 : String)
    (s1 s2 base : TargetSection)
    (hc1 : ev.compiles k1 = true) (hc2 : ev.compiles k2 = true)
    (hr1 : ev.run k1 = .ok (.vbool true)) (hr2 : ev.run k2 = .ok (.vbool true))
    (hnd1 : (s1.defines.map Prod.fst).Nodup) (hnd2 : (s2.defines.map Prod.fst).Nodup)
    (hkeys : ∀ k, alookup s1.defines k = none ∨ alookup s2.defines k = none)
    (hsrc : s1.sources = [] ∨ s2.sources = [])
    (hhdr : s1.headers = [] ∨ s2.headers = [])
    (hlnk : s1.links = [] ∨ s2.links = [])
    (hcfl : s1.cflags = [] ∨ s2.cflags = []) :
    ∃ t1 t2,
      parseConfigTarget ev base [(k1, .table s1), (k2, .table s2)] = .ok t1 ∧
      parseConfigTarget ev base [(k2, .table s2), (k1, .table s1)] = .ok t2 ∧
      TargetSection.equivS t1 t2 := by
  refine ⟨mergeTargetSection (mergeTargetSection base s1) s2,
          mergeTargetSection (mergeTargetSection base s2) s1, ?_, ?_, ?_⟩
  · simp [parseConfigTarget, unmarshalConditionalSection, condEntries, hc1, hc2,
      runConds, hr1, hr2]
  · simp [parseConfigTarget, unmarshalConditionalSection, condEntries, hc1, hc2,
      runConds, hr1, hr2]
  · refine ⟨?_, ?_, ?_, ?_, ?_, ?_⟩
    · show ((base.lib || s1.lib) || s2.lib) = ((base.lib || s2.lib) || s1.lib)
      cases base.lib <;> cases s1.lib <;> cases s2.lib <;> rfl
    · show (base.sources ++ s1.sources) ++ s2.sources =
        (base.sources ++ s2.sources) ++ s1.sources
      rcases hsrc with h | h <;> simp [h]
    · show (base.headers ++ s1.headers) ++ s2.headers =
        (base.headers ++ s2.headers) ++ s1.headers
      rcases hhdr with h | h <;> simp [h]
    · show (base.links ++ s1.links) ++ s2.links =
        (base.links ++ s2.links) ++ s1.links
      rcases hlnk with h | h <;> simp [h]
    · show (base.cflags ++ s1.cflags) ++ s2.cflags =
        (base.cflags ++ s2.cflags) ++ s1.cflags
      rcases hcfl with h | h <;> simp [h]
    · intro k
      show alookup (mergeMap (mergeMap base.defines s1.defines) s2.defines) k =
        alookup (mergeMap (mergeMap base.defines s2.defines) s1.defines) k
      rw [alookup_mergeMap _ _ hnd2, alookup_mergeMap _ _ hnd1,
        alookup_mergeMap _ _ hnd1, alookup_mergeMap _ _ hnd2]
      rcases hkeys k with h | h <;> simp [h]

/-- Witness for the amended C7 at concrete sub-sections: one contributes a
link and a define, the other a source and a different define. -/
theorem conditional_merge_order_amended_witness :
    ∃ t1 t2,
      parseConfigTarget ⟨fun _ => true, fun _ => .ok (.vbool true)⟩
          ⟨false, [], [], [("A", "0")], [], []⟩
          [("c1", .table ⟨false, [], [], [("B", "1")], ["m"], []⟩),
           ("c2", .table ⟨true, ["s.c"], [], [("C", "2")], [], []⟩)] = .ok t1 ∧
      parseConfigTarget ⟨fun _ => true, fun _ => .ok (.vbool true)⟩
          ⟨false, [], [], [("A", "0")], [], []⟩
          [("c2", .table ⟨true, ["s.c"], [], [("C", "2")], [], []⟩),
           ("c1", .table ⟨false, [], [], [("B", "1")], ["m"], []⟩)] = .ok t2 ∧
      TargetSection.equivS t1 t2 :=
  conditional_merge_order_amended ⟨fun _ => true, fun _ => .ok (.vbool true)⟩
    "c1" "c2" ⟨false, [], [], [("B", "1")], ["m"], []⟩
    ⟨true, ["s.c"], [], [("C", "2")], [], []⟩ ⟨false, [], [], [("A", "0")], [], []⟩
    rfl rfl rfl rfl (by decide) (by decide)
    (fun k => by
      by_cases h : "B" = k
      · right
        simp [alookup, h]
        intro hC
        rw [← h] at hC
        exact absurd hC (by decide)
      · left
        simp [alookup, h])
    (Or.inl rfl) (Or.inl rfl) (Or.inr rfl) (Or.inl rfl)

theorem condEntries_append {T : Type} (ev : Evaluator)
    (l1 l2 : List (String × RawVal T)) :
    condEntries ev (l1 ++ l2) = condEntries ev l1 ++ condEntries ev l2 := by
  simp [condEntries]

theorem runConds_skip_entry {T : Type} (ev : Evaluator) (merge : T → T → T)
    (k : String) (t : T) (v : EValue)
    (hr : ev.run k = .ok v) (hnb : v ≠ .vbool true) :
    ∀ (l l' : List (String × T)) (dst : T),
      runConds ev merge dst (l ++ (k, t) :: l') = runConds ev merge dst (l ++ l') := by
  intro l
  induction l with
  | nil =>
    intro l' dst
    simp only [List.nil_append, runConds, hr]
    rw [if_neg (by simpa using hnb)]
  | cons p rest ih =>
    intro l' dst
    obtain ⟨k0, t0⟩ := p
    simp only [List.cons_append, runConds]
    cases h0 : ev.run k0 with
    | error e => rfl
    | ok v0 =>
      dsimp only
      by_cases hv : v0 = .vbool true
      · rw [if_pos hv, if_pos hv]
        exact ih l' (merge dst t0)
      · rw [if_neg hv, if_neg hv]
        exact ih l' dst

/-- C9.  A conditional sub-section whose key compiles and whose expression
runs without error but yields a non-boolean value is silently skipped: the
section pass of `ParseConfig` behaves exactly as if the sub-section were
absent (in particular it reports no error and keeps processing the
remaining sub-sections). -/
theorem nonboolean_conditional_skipped (ev : Evaluator) (base : TargetSection)
    (pre post : List (String × RawVal TargetSection)) (k : String)
    (t : TargetSection) (v : EValue)
    (hc : ev.compiles k = true) (hr : ev.run k = .ok v)
    (hnb : ∀ b, v ≠ .vbool b) :
    parseConfigTarget ev base (pre ++ (k, .table t) :: post) =
      parseConfigTarget ev base (pre ++ post) := by
  unfold parseConfigTarget unmarshalConditionalSection
  rw [condEntries_append, condEntries_append]
  have hk : condEntries ev [(k, RawVal.table t)] = [(k, t)] := by
    simp [condEntries, hc]
  have step : condEntries ev ((k, RawVal.table t) :: post) =
      (k, t) :: condEntries ev post := by
    have : (k, RawVal.table t) :: post = [(k, RawVal.table t)] ++ post := rfl
    rw [this, condEntries_append, hk]
    rfl
  rw [step]
  exact runConds_skip_entry ev mergeTargetSection k t v hr (hnb true) _ _ base

/-- Witness for C9: a sub-section keyed by an expression yielding a string
is skipped and parsing succeeds as without it. -/
theorem nonboolean_conditional_skipped_witness :
    (∀ b, EValue.vstr "linux" ≠ .vbool b) ∧
    parseConfigTarget
        ⟨fun _ => true, fun s => if s = "cond" then .ok (.vstr "linux") else .ok (.vbool true)⟩
        ⟨false, [], [], [], [], []⟩
        [("other", .table ⟨true, [], [], [], [], []⟩),
         ("cond", .table ⟨false, ["bad.c"], [], [], [], []⟩)] =
      parseConfigTarget
        ⟨fun _ => true, fun s => if s = "cond" then .ok (.vstr "linux") else .ok (.vbool true)⟩
        ⟨false, [], [], [], [], []⟩
        [("other", .table ⟨true, [], [], [], [], []⟩)] :=
  ⟨(fun _ h => nomatch h),
   nonboolean_conditional_skipped
     ⟨fun _ => true, fun s => if s = "cond" then .ok (.vstr "linux") else .ok (.vbool true)⟩
     ⟨false, [], [], [], [], []⟩
     [("other", .table ⟨true, [], [], [], [], []⟩)] [] "cond"
     ⟨false, ["bad.c"], [], [], [], []⟩ (.vstr "linux") rfl (by simp)
     (fun _ h => nomatch h)⟩

theorem alookup_aset_self {α : Type} (m : List (String × α)) (k : String) (v : α) :
    alookup (aset m k v) k = some v := by
  induction m with
  | nil => simp
  | cons p rest ih =>
    obtain ⟨k', v'⟩ := p
    by_cases hk : k' = k
    · simp [hk]
    · simp only [aset_cons, if_neg hk, alookup_cons, if_neg hk]
      exact ih

theorem alookup_aset_ne {α : Type} (m : List (String × α)) (k k' : String) (v : α)
    (h : k ≠ k') : alookup (aset m k v) k' = alookup m k' := by
  induction m with
  | nil => simp [h]
  | cons p rest ih =>
    obtain ⟨k0, v0⟩ := p
    by_cases hk : k0 = k
    · subst hk
      simp [h]
    · simp only [aset_cons, if_neg hk, alookup_cons]
      by_cases h2 : k0 = k'
      · simp [h2]
      · simp only [if_neg h2]
        exact ih

/-- C4.  The worklist semantics of `ResolveFeatures`: the loop finishes by
returning exactly the accumulated own-feature set and dependency map; an
item with a slash records the feature for the named dependency (appending
it only when absent) and is not expanded locally; an item already in the
own set is skipped; a fresh item is added to the own set, pushing its
feature-graph entries (when any) onto the worklist; and the seed worklist
is the requested list plus the `default` entries when default-features is
in effect. -/
theorem resolveFeatures_worklist_rules (f : List (String × List String)) :
    (∀ own deps, resolveLoop f [] own deps = (own, deps)) ∧
    (∀ x q own deps a b, splitDepFeature x = some (a, b) →
      resolveLoop f (x :: q) own deps = resolveLoop f q own (addDepFeature deps a b)) ∧
    (∀ deps a b, alookup (addDepFeature deps a b) a =
      some (if b ∈ (alookup deps a).getD [] then (alookup deps a).getD []
            else (alookup deps a).getD [] ++ [b]) ∧
      ∀ a', a' ≠ a → alookup (addDepFeature deps a b) a' = alookup deps a') ∧
    (∀ x q own deps, splitDepFeature x = none → x ∈ own →
      resolveLoop f (x :: q) own deps = resolveLoop f q own deps) ∧
    (∀ x q own deps subs, splitDepFeature x = none → x ∉ own → alookup f x = some subs →
      resolveLoop f (x :: q) own deps = resolveLoop f (q ++ subs) (own ++ [x]) deps) ∧
    (∀ x q own deps, splitDepFeature x = none → x ∉ own → alookup f x = none →
      resolveLoop f (x :: q) own deps = resolveLoop f q (own ++ [x]) deps) ∧
    (∀ requested, resolveFeatures f requested true =
      resolveLoop f (requested ++ (alookup f "default").getD []) [] []) ∧
    (∀ requested, resolveFeatures f requested false = resolveLoop f requested [] []) := by
  refine ⟨?_, ?_, ?_, ?_, ?_, ?_, ?_, ?_⟩
  · intro own deps
    simp [resolveLoop]
  · intro x q own deps a b hsplit
    rw [resolveLoop, hsplit]
  · intro deps a b
    constructor
    · unfold addDepFeature
      by_cases hb : b ∈ (alookup deps a).getD []
      · rw [if_pos hb, if_pos hb]
        cases hcur : alookup deps a with
        | none => simp_all
        | some cur => rfl
      · rw [if_neg hb, if_neg hb, alookup_aset_self]
    · intro a' ha'
      unfold addDepFeature
      by_cases hb : b ∈ (alookup deps a).getD []
      · rw [if_pos hb]
      · rw [if_neg hb, alookup_aset_ne _ _ _ _ (fun h => ha' h.symm)]
  · intro x q own deps hsplit hmem
    rw [resolveLoop, hsplit]
    simp [hmem]
  · intro x q own deps subs hsplit hmem hlook
    rw [resolveLoop, hsplit]
    simp only [if_neg hmem]
    split
    · rename_i subs2 heq
      rw [hlook] at heq
      injection heq with heq
      rw [heq]
    · rename_i heq
      rw [hlook] at heq
      exact absurd heq (by simp)
  · intro x q own deps hsplit hmem hlook
    rw [resolveLoop, hsplit]
    simp only [if_neg hmem]
    split
    · rename_i subs2 heq
      rw [hlook] at heq
      exact absurd heq (by simp)
    · rfl
  · intro requested
    rfl
  · intro requested
    simp [resolveFeatures]
  

/-- Witness for C4: one application of the slash rule at concrete input. -/
theorem resolveFeatures_worklist_rules_witness :
    splitDepFeature "dep1/fast" = some ("dep1", "fast") ∧
    resolveLoop [] ["dep1/fast"] [] [] =
      resolveLoop [] [] [] (addDepFeature [] "dep1" "fast") :=
  ⟨by decide,
   (resolveFeatures_worklist_rules []).2.1 "dep1/fast" [] [] [] "dep1" "fast" (by decide)⟩

/-- C10.  `ResolveFeatures` is a total function (the definition carries a
termination proof: a feature already in the own set is never expanded
again, and slash items are only recorded), in particular it terminates on
a cyclic feature graph, as evaluated on the two-cycle below. -/
theorem resolveFeatures_total :
    (∀ (f : List (String × List String)) (requested : List String) (useDefault : Bool),
      ∃ own deps, resolveFeatures f requested useDefault = (own, deps)) ∧
    alookup [("a", ["b"]), ("b", ["a"])] "a" = some ["b"] ∧
    alookup [("a", ["b"]), ("b", ["a"])] "b" = some ["a"] ∧
    resolveFeatures [("a", ["b"]), ("b", ["a"])] ["a"] false = (["a", "b"], []) := by
  refine ⟨fun f r u => ⟨_, _, rfl⟩, by decide, by decide, ?_⟩
  show resolveLoop [("a", ["b"]), ("b", ["a"])] (["a"] ++ []) [] [] = (["a", "b"], [])
  simp [resolveLoop.eq_def, splitDepFeature, splitAtSlash, addDepFeature, alookup]

/-- The visit sequence of the `collectLinks` traversal: the dependency
names whose links get contributed, in first-visit (depth-first,
at-most-once) order. -/
def dfsVisitOrder (packages : List (String × Package)) (seen : List String) :
    List String → List String
  | [] => []
  | n :: rest =>
    if n ∈ seen then dfsVisitOrder packages seen rest
    else
      match hl : alookup packages n with
      | none => dfsVisitOrder packages (seen ++ [n]) rest
      | some dep => n :: dfsVisitOrder packages (seen ++ [n]) (dep.dependencies ++ rest)
termination_by stack =>
  ((((packages.map Prod.fst).filter (fun k => decide (k ∉ seen))).length, stack.length) :
    Nat × Nat)
decreasing_by
  · exact Prod.Lex.right _ (by simp)
  · exact lex_step_congr _ _ _ _ _ (alookup_none_not_mem (by assumption)) (by simp)
  · exact lex_step_left _ _ _ _ _ (alookup_mem_keys (by assumption)) (by assumption)

theorem collectLinks_nil (packages : List (String × Package)) (seen : List String) :
    collectLinks packages seen [] = [] := by
  rw [collectLinks]

theorem collectLinks_mem (packages : List (String × Package)) (seen : List String)
    (n : String) (rest : List String) (h : n ∈ seen) :
    collectLinks packages seen (n :: rest) = collectLinks packages seen rest := by
  rw [collectLinks]
  simp [h]

theorem collectLinks_none (packages : List (String × Package)) (seen : List String)
    (n : String) (rest : List String) (hm : n ∉ seen) (hl : alookup packages n = none) :
    collectLinks packages seen (n :: rest) = collectLinks packages (seen ++ [n]) rest := by
  rw [collectLinks]
  simp only [if_neg hm]
  split
  · rfl
  · rename_i dep heq
    rw [hl] at heq
    exact absurd heq (by simp)

theorem collectLinks_some (packages : List (String × Package)) (seen : List String)
    (n : String) (rest : List String) (dep : Package)
    (hm : n ∉ seen) (hl : alookup packages n = some dep) :
    collectLinks packages seen (n :: rest) =
      dep.links.map (fun lib => "-l" ++ lib) ++
        collectLinks packages (seen ++ [n]) (dep.dependencies ++ rest) := by
  rw [collectLinks]
  simp only [if_neg hm]
  split
  · rename_i heq
    rw [hl] at heq
    exact absurd heq (by simp)
  · rename_i dep2 heq
    rw [hl] at heq
    injection heq with heq
    subst heq
    rfl

theorem dfsVisitOrder_nil (packages : List (String × Package)) (seen : List String) :
    dfsVisitOrder packages seen [] = [] := by
  rw [dfsVisitOrder]

theorem dfsVisitOrder_mem (packages : List (String × Package)) (seen : List String)
    (n : String) (rest : List String) (h : n ∈ seen) :
    dfsVisitOrder packages seen (n :: rest) = dfsVisitOrder packages seen rest := by
  rw [dfsVisitOrder]
  simp [h]

theorem dfsVisitOrder_none (packages : List (String × Package)) (seen : List String)
    (n : String) (rest : List String) (hm : n ∉ seen) (hl : alookup packages n = none) :
    dfsVisitOrder packages seen (n :: rest) = dfsVisitOrder packages (seen ++ [n]) rest := by
  rw [dfsVisitOrder]
  simp only [if_neg hm]
  split
  · rfl
  · rename_i dep heq
    rw [hl] at heq
    exact absurd heq (by simp)

theorem dfsVisitOrder_some (packages : List (String × Package)) (seen : List String)
    (n : String) (rest : List String) (dep : Package)
    (hm : n ∉ seen) (hl : alookup packages n = some dep) :
    dfsVisitOrder packages seen (n :: rest) =
      n :: dfsVisitOrder packages (seen ++ [n]) (dep.dependencies ++ rest) := by
  rw [dfsVisitOrder]
  simp only [if_neg hm]
  split
  · rename_i heq
    rw [hl] at heq
    exact absurd heq (by simp)
  · rename_i dep2 heq
    rw [hl] at heq
    injection heq with heq
    subst heq
    rfl

theorem collectLinks_eq_visit (packages : List (String × Package)) :
    ∀ (seen stack : List String),
      collectLinks packages seen stack =
        (dfsVisitOrder packages seen stack).flatMap
          (fun n => ((alookup packages n).getD ⟨[], []⟩).links.map
            (fun lib => "-l" ++ lib)) := by
  intro seen stack
  induction seen, stack using collectLinks.induct packages with
  | case1 seen => simp [collectLinks_nil, dfsVisitOrder_nil]
  | case2 seen n rest hmem ih =>
    rw [collectLinks_mem _ _ _ _ hmem, dfsVisitOrder_mem _ _ _ _ hmem]
    exact ih
  | case3 seen n rest hmem hl ih =>
    rw [collectLinks_none _ _ _ _ hmem hl, dfsVisitOrder_none _ _ _ _ hmem hl]
    exact ih
  | case4 seen n rest hmem dep hl ih =>
    rw [collectLinks_some _ _ _ _ _ hmem hl, dfsVisitOrder_some _ _ _ _ _ hmem hl,
      List.flatMap_cons, hl]
    rw [ih]
    rfl

theorem dfsVisitOrder_nodup (packages : List (String × Package)) :
    ∀ (seen stack : List String),
      (dfsVisitOrder packages seen stack).Nodup ∧
        ∀ v ∈ dfsVisitOrder packages seen stack, v ∉ seen := by
  intro seen stack
  induction seen, stack using dfsVisitOrder.induct packages with
  | case1 seen => simp [dfsVisitOrder_nil]
  | case2 seen n rest hmem ih =>
    rw [dfsVisitOrder_mem _ _ _ _ hmem]
    exact ih
  | case3 seen n rest hmem hl ih =>
    rw [dfsVisitOrder_none _ _ _ _ hmem hl]
    refine ⟨ih.1, fun v hv hvs => ih.2 v hv ?_⟩
    simp [hvs]
  | case4 seen n rest hmem dep hl ih =>
    rw [dfsVisitOrder_some _ _ _ _ _ hmem hl]
    constructor
    · refine List.nodup_cons.mpr ⟨fun hn => ?_, ih.1⟩
      exact ih.2 n hn (by simp)
    · intro v hv
      rcases List.mem_cons.mp hv with h | h
      · subst h; exact hmem
      · intro hvs
        exact ih.2 v h (by simp [hvs])

/-- C5 counterexample.  A target with one own link `a` and one dependency
`d` that links `b`: the produced flag list is `[-lb, -la]` — the
dependency traversal's links come first and the target's own links last,
not the other way around as claimed. -/
theorem link_flags_order_counterexample :
    buildLdflags [("d", ⟨["b"], []⟩)] ⟨["a"], ["d"]⟩ = ["-lb", "-la"] ∧
    (⟨["a"], ["d"]⟩ : Package).links.map (fun lib => "-l" ++ lib) = ["-la"] ∧
    collectLinks [("d", ⟨["b"], []⟩)] [] ["d"] = ["-lb"] ∧
    buildLdflags [("d", ⟨["b"], []⟩)] ⟨["a"], ["d"]⟩ ≠
      (⟨["a"], ["d"]⟩ : Package).links.map (fun lib => "-l" ++ lib) ++
        collectLinks [("d", ⟨["b"], []⟩)] [] ["d"] := by
  have h1 : collectLinks [("d", (⟨["b"], []⟩ : Package))] [] ["d"] = ["-lb"] := by
    rw [collectLinks_some [("d", ⟨["b"], []⟩)] [] "d" [] ⟨["b"], []⟩ (by simp) rfl]
    simp only [List.nil_append, List.append_nil]
    rw [collectLinks_nil]
    rfl
  refine ⟨?_, by decide, h1, ?_⟩
  · unfold buildLdflags
    rw [h1]
    rfl
  · unfold buildLdflags
    rw [h1]
    decide

/-- C5, amended.  The link-flag list is the concatenation of the links
contributed by a depth-first traversal of the target's dependencies —
each dependency visited at most once, in first-occurrence order —
followed by the `-l` entries for the target's own links. -/
theorem link_flags_traversal_amended (packages : List (String × Package)) (pkg : Package) :
    buildLdflags packages pkg =
      (dfsVisitOrder packages [] pkg.dependencies).flatMap
        (fun n => ((alookup packages n).getD ⟨[], []⟩).links.map
          (fun lib => "-l" ++ lib)) ++
      pkg.links.map (fun lib => "-l" ++ lib) ∧
    (dfsVisitOrder packages [] pkg.dependencies).Nodup := by
  constructor
  · unfold buildLdflags
    rw [collectLinks_eq_visit]
  · exact (dfsVisitOrder_nodup packages [] pkg.dependencies).1

/-! ### C1: the planner's dirtiness and relink rules -/

/-- The claim's dirtiness condition for one source: object file missing,
no prior state record, or the recorded hash differs from the current
content hash (as optional values). -/
def specDirty (g : BuildEnv) (old : Option BuildState) (src : SourceFile) : Bool :=
  (g.fs.file (pjoin g.buildDir src.obj)).isNone ||
  (match old with
   | none => true
   | some st => decide (alookup st.sources src.src ≠ g.fs.file src.src))

/-- The compile job the planner emits for a dirty source. -/
def mkCompileJob (g : BuildEnv) (t : buildUnit) (src : SourceFile) : compileJob :=
  { src := src.src, obj := pjoin g.buildDir src.obj, cflags := t.cflags,
    isCxx := src.isCxx, cc := if src.isCxx then g.cxx else g.cc }

/-- The claim's relink condition for one target: artifact missing, the
recorded flag lists differ from the current ones, an upstream target was
relinked in this run, an upstream artifact is missing or hashes
differently from the record, or at least one source is dirty. -/
def specRelink (g : BuildEnv) (rebuilt : List String) (t : buildUnit) : Bool :=
  let old := alookup g.buildState t.name
  (g.fs.file (pjoin g.buildDir t.name)).isNone ||
  (match old with
   | some st => decide (st.cflags ≠ t.cflags) || decide (st.ldflags ≠ t.ldflags)
   | none => false) ||
  t.dependencies.any (fun d => decide (d ∈ rebuilt)) ||
  t.dependencies.any (fun d =>
    (g.fs.file (pjoin g.buildDir d)).isNone ||
    decide ((old.bind fun st => alookup st.dependencies d) ≠
      g.fs.file (pjoin g.buildDir d))) ||
  t.sources.any (fun s => specDirty g old s)

theorem isSourceFileDirty_ok_eq (g : BuildEnv) (src : SourceFile)
    (old : Option BuildState) (b : Bool)
    (hok : isSourceFileDirty g src (pjoin g.buildDir src.obj) old = .ok b) :
    b = specDirty g old src := by
  unfold isSourceFileDirty at hok
  by_cases hobj : (g.fs.file (pjoin g.buildDir src.obj)).isNone = true
  · rw [if_pos hobj] at hok
    have hb : b = true := by injection hok with h; exact h.symm
    subst hb
    unfold specDirty
    simp [hobj]
  · have hobj' : (g.fs.file (pjoin g.buildDir src.obj)).isNone = false := by
      cases h2 : (g.fs.file (pjoin g.buildDir src.obj)).isNone
      · rfl
      · exact absurd h2 hobj
    rw [if_neg hobj] at hok
    unfold specDirty
    rw [hobj', Bool.false_or]
    cases old with
    | none =>
      have hb : b = true := by injection hok with h; exact h.symm
      subst hb
      rfl
    | some st =>
      dsimp only at hok ⊢
      cases hsrc : g.fs.file src.src with
      | none =>
        rw [hsrc] at hok
        simp at hok
      | some hash =>
        rw [hsrc] at hok
        dsimp only at hok
        cases hlook : alookup st.sources src.src with
        | none =>
          rw [hlook] at hok
          dsimp only at hok
          have hb : b = true := by injection hok with h; exact h.symm
          subst hb
          simp
        | some prev =>
          rw [hlook] at hok
          dsimp only at hok
          have hb : b = decide (prev ≠ hash) := by injection hok with h; exact h.symm
          subst hb
          by_cases he : prev = hash
          · simp [he]
          · simp [he]

theorem except_bind_error {ε α β : Type} (e : ε) (f : α → Except ε β) :
    ((Except.error e : Except ε α) >>= f) = Except.error e := rfl

theorem except_bind_ok {ε α β : Type} (a : α) (f : α → Except ε β) :
    ((Except.ok a : Except ε α) >>= f) = f a := rfl

theorem collectCompileJobs_ok_eq (g : BuildEnv) (t : buildUnit)
    (old : Option BuildState) :
    ∀ (srcs : List SourceFile) (cjs : List compileJob),
      collectCompileJobs g t old srcs = .ok cjs →
      cjs = (srcs.filter (fun s => specDirty g old s)).map (mkCompileJob g t) := by
  intro srcs
  induction srcs with
  | nil =>
    intro cjs hok
    injection hok with hok
    simp [← hok]
  | cons src rest ih =>
    intro cjs hok
    unfold collectCompileJobs at hok
    dsimp only at hok
    cases hd : isSourceFileDirty g src (pjoin g.buildDir src.obj) old with
    | error e =>
      rw [hd, except_bind_error] at hok
      exact Except.noConfusion hok
    | ok b =>
      rw [hd, except_bind_ok] at hok
      cases hr : collectCompileJobs g t old rest with
      | error e =>
        rw [hr, except_bind_error] at hok
        exact Except.noConfusion hok
      | ok jobs =>
        rw [hr, except_bind_ok] at hok
        have hb := isSourceFileDirty_ok_eq g src old b hd
        have hjobs := ih jobs hr
        cases b with
        | true =>
          simp only [if_pos rfl] at hok
          injection hok with hok
          rw [← hok, List.filter_cons, ← hb]
          simp only [if_pos rfl, List.map_cons]
          rw [hjobs]
          rfl
        | false =>
          simp only [Bool.false_eq_true, if_false] at hok
          injection hok with hok
          rw [← hok, List.filter_cons, ← hb]
          simp only [Bool.false_eq_true, if_false]
          exact hjobs

theorem depNeedsRelink_eq (g : BuildEnv) (old : Option BuildState)
    (rebuilt : List String) (hNE : g.fs.hashesNonempty) :
    ∀ deps : List String,
      depNeedsRelink g old rebuilt deps =
        deps.any (fun d =>
          decide (d ∈ rebuilt) ||
          ((g.fs.file (pjoin g.buildDir d)).isNone ||
           decide ((old.bind fun st => alookup st.dependencies d) ≠
             g.fs.file (pjoin g.buildDir d)))) := by
  intro deps
  induction deps with
  | nil => rfl
  | cons d rest ih =>
    unfold depNeedsRelink
    by_cases hreb : d ∈ rebuilt
    · simp [hreb]
    · rw [if_neg hreb]
      cases hfs : g.fs.file (pjoin g.buildDir d) with
      | none => simp [hreb, hfs]
      | some hash =>
        cases old with
        | none => simp [hreb, hfs]
        | some st =>
          dsimp only
          by_cases hdiff : ((alookup st.dependencies d).getD "") ≠ hash
          · rw [if_pos hdiff]
            symm
            rw [List.any_eq_true]
            refine ⟨d, List.mem_cons_self d rest, ?_⟩
            cases hlook : alookup st.dependencies d with
            | none => simp [hreb, hlook, hfs]
            | some p =>
              have hp : p ≠ hash := by
                rw [hlook] at hdiff
                simpa using hdiff
              simp [hreb, hlook, hfs, hp]
          · rw [if_neg hdiff]
            push_neg at hdiff
            cases hlook : alookup st.dependencies d with
            | none =>
              rw [hlook] at hdiff
              simp only [Option.getD_none] at hdiff
              exact absurd hdiff.symm (hNE _ _ hfs)
            | some p =>
              rw [hlook] at hdiff
              simp only [Option.getD_some] at hdiff
              subst hdiff
              rw [ih, List.any_cons]
              simp [hreb, hfs, hlook]

theorem list_any_or {α : Type} (l : List α) (p q : α → Bool) :
    l.any (fun a => p a || q a) = (l.any p || l.any q) := by
  induction l with
  | nil => rfl
  | cons a rest ih =>
    simp only [List.any_cons, ih]
    cases p a <;> cases q a <;> cases rest.any p <;> cases rest.any q <;> rfl

/-- C1.  For every target the planner processes: the emitted compile jobs
are exactly the jobs of the sources satisfying the claimed dirtiness
condition (object missing, or no prior record, or recorded hash differs),
and the target is scheduled for relinking exactly under the claimed
relink condition (artifact missing, or recorded flags differ, or an
upstream target relinked in this run, or an upstream artifact missing or
hashing differently from the record, or some source dirty). -/
theorem planner_dirty_relink_rules (g : BuildEnv) (rebuilt : List String)
    (t : buildUnit) (cjs : List compileJob) (rel : Bool)
    (hNE : g.fs.hashesNonempty)
    (hok : planTarget g rebuilt t = .ok (cjs, rel)) :
    cjs = (t.sources.filter
      (fun s => specDirty g (alookup g.buildState t.name) s)).map (mkCompileJob g t) ∧
    (rel = true ↔ specRelink g rebuilt t = true) := by
  unfold planTarget at hok
  dsimp only at hok
  cases hc : collectCompileJobs g t (alookup g.buildState t.name) t.sources with
  | error e =>
    rw [hc, except_bind_error] at hok
    exact Except.noConfusion hok
  | ok jobs =>
    rw [hc, except_bind_ok] at hok
    injection hok with hok
    have hjobs := collectCompileJobs_ok_eq g t (alookup g.buildState t.name) t.sources jobs hc
    have h1 : cjs = jobs := (congrArg Prod.fst hok).symm
    have h2 : rel = _ := (congrArg Prod.snd hok).symm
    subst h1
    refine ⟨hjobs, ?_⟩
    have hdirty : (decide (cjs ≠ [])) = t.sources.any
        (fun s => specDirty g (alookup g.buildState t.name) s) := by
      rw [hjobs]
      by_cases hany : t.sources.any
          (fun s => specDirty g (alookup g.buildState t.name) s) = true
      · rw [hany]
        rcases List.any_eq_true.mp hany with ⟨s, hs, hps⟩
        have : s ∈ t.sources.filter
            (fun s => specDirty g (alookup g.buildState t.name) s) :=
          List.mem_filter.mpr ⟨hs, hps⟩
        simp only [decide_eq_true_eq]
        intro hnil
        rw [List.map_eq_nil_iff] at hnil
        rw [hnil] at this
        simp at this
      · have hany' := hany
        rw [Bool.not_eq_true] at hany'
        rw [hany']
        have : t.sources.filter
            (fun s => specDirty g (alookup g.buildState t.name) s) = [] := by
          rw [List.filter_eq_nil_iff]
          intro a ha hpa
          exact hany (List.any_eq_true.mpr ⟨a, ha, hpa⟩)
        rw [this]
        simp
    have hrel : rel = specRelink g rebuilt t := by
      rw [h2]
      unfold specRelink
      dsimp only
      rw [depNeedsRelink_eq g _ rebuilt hNE, list_any_or, hdirty]
      simp only [Bool.or_assoc]
    rw [hrel]

/-- Witness for C1: a target with one source and one upstream dependency,
planned with no prior state over a filesystem where every path hashes to
`"h"`; the source is classified dirty and the target relinks. -/
theorem planner_dirty_relink_rules_witness :
    FSModel.hashesNonempty ⟨fun _ => some "h"⟩ ∧
    ∃ p : List compileJob × Bool,
      planTarget ⟨"cc", "cxx", "b", [], ⟨fun _ => some "h"⟩⟩ []
        ⟨"app", false, [⟨"m.c", "m.c.obj", false⟩], ["libx"], ["-O2"], [], "/src"⟩ =
        .ok p ∧
      p.1 = (([⟨"m.c", "m.c.obj", false⟩] : List SourceFile).filter
        (fun s => specDirty ⟨"cc", "cxx", "b", [], ⟨fun _ => some "h"⟩⟩
          (alookup ([] : List (String × BuildState)) "app") s)).map
        (mkCompileJob ⟨"cc", "cxx", "b", [], ⟨fun _ => some "h"⟩⟩
          ⟨"app", false, [⟨"m.c", "m.c.obj", false⟩], ["libx"], ["-O2"], [], "/src"⟩) ∧
      (p.2 = true ↔
        specRelink ⟨"cc", "cxx", "b", [], ⟨fun _ => some "h"⟩⟩ []
          ⟨"app", false, [⟨"m.c", "m.c.obj", false⟩], ["libx"], ["-O2"], [], "/src"⟩ = true) := by
  have hne : FSModel.hashesNonempty ⟨fun _ => some "h"⟩ := by
    intro p h hf
    injection hf with hf
    rw [← hf]
    decide
  refine ⟨hne, ⟨([⟨"m.c", pjoin "b" "m.c.obj", ["-O2"], false, "cc"⟩], true), rfl, ?_⟩⟩
  exact planner_dirty_relink_rules ⟨"cc", "cxx", "b", [], ⟨fun _ => some "h"⟩⟩ []
    ⟨"app", false, [⟨"m.c", "m.c.obj", false⟩], ["libx"], ["-O2"], [], "/src"⟩
    [⟨"m.c", pjoin "b" "m.c.obj", ["-O2"], false, "cc"⟩] true hne rfl

/-! ### C8: state-store failures are non-fatal -/

/-- Every warning of the post-link state-update loop names a target. -/
theorem updateStates_warn_shape (fs : FSModel) (buildDir : String)
    (targets : List (String × buildUnit)) :
    ∀ (ljs : List linkJob) (stateMap : List (String × BuildState)),
      ∀ w ∈ (updateStates fs buildDir targets stateMap ljs).2,
        ∃ n, w = "failed to update build state for target " ++ n := by
  intro ljs
  induction ljs with
  | nil =>
    intro stateMap w hw
    simp [updateStates] at hw
  | cons j rest ih =>
    intro stateMap w hw
    unfold updateStates at hw
    cases halt : alookup targets j.name with
    | none =>
      rw [halt] at hw
      exact ih stateMap w hw
    | some t =>
      rw [halt] at hw
      dsimp only at hw
      cases hupd : updateBuildState fs buildDir t with
      | error e =>
        rw [hupd] at hw
        dsimp only at hw
        rcases List.mem_cons.mp hw with h | h
        · exact ⟨t.name, h⟩
        · exact ih stateMap w h
      | ok st =>
        rw [hupd] at hw
        exact ih (aset stateMap t.name st) w hw

/-- The load warning differs from every state-update warning. -/
theorem load_warn_ne_update (n : String) :
    "failed to load build state" ≠ "failed to update build state for target " ++ n := by
  intro h
  have hlen := congrArg String.length h
  rw [String.length_append] at hlen
  have h1 : ("failed to load build state" : String).length = 26 := by decide
  have h2 : ("failed to update build state for target " : String).length = 40 := by decide
  omega

/-- C8 (corrected).  A failure to load the persisted build state never
aborts the build.  An unreadable state file only warns and the run
behaves exactly like a run with no state file at all; a corrupted state
file only warns and the run behaves exactly like a run whose state file
validly held the records that survived partial decoding — surviving
targets keep their records, so the build does not in general proceed as
if no prior state existed; a missing state file is silently accepted and
produces no load warning.  A failed state save after building likewise
only warns: the outcome is identical to a run whose save succeeds, and a
run that actually built emits the save warning. -/
theorem state_errors_nonfatal (cc cxx buildDir : String)
    (targets : List (String × buildUnit)) (fs : FSModel) (execOk saveOk : Bool)
    (kept : List (String × BuildState)) :
    ((invokeModel cc cxx buildDir targets (.corrupt kept) fs execOk saveOk).1 =
      (invokeModel cc cxx buildDir targets (.valid kept) fs execOk saveOk).1) ∧
    "failed to load build state" ∈
      (invokeModel cc cxx buildDir targets (.corrupt kept) fs execOk saveOk).2 ∧
    ((invokeModel cc cxx buildDir targets .unreadable fs execOk saveOk).1 =
      (invokeModel cc cxx buildDir targets .missing fs execOk saveOk).1) ∧
    "failed to load build state" ∈
      (invokeModel cc cxx buildDir targets .unreadable fs execOk saveOk).2 ∧
    "failed to load build state" ∉
      (invokeModel cc cxx buildDir targets .missing fs execOk saveOk).2 ∧
    (∀ stateFile : StateFile,
      (invokeModel cc cxx buildDir targets stateFile fs execOk false).1 =
        (invokeModel cc cxx buildDir targets stateFile fs execOk true).1) ∧
    (∀ (stateFile : StateFile) (cjs : List compileJob) (ljs : List linkJob),
      (invokeModel cc cxx buildDir targets stateFile fs true false).1 =
        .ok (.built cjs ljs) →
      "failed to save build state" ∈
        (invokeModel cc cxx buildDir targets stateFile fs true false).2) := by
  refine ⟨?_, ?_, ?_, ?_, ?_, ?_, ?_⟩
  · unfold invokeModel
    dsimp only [loadBuildState]
    cases topologicalSortTargets targets with
    | error e => rfl
    | ok names =>
      dsimp only
      cases planBuild ⟨cc, cxx, buildDir, kept, fs⟩ targets [] names with
      | error e => rfl
      | ok p =>
        obtain ⟨a, b⟩ := p
        dsimp only
        by_cases hempty : (a.isEmpty && b.isEmpty) = true
        · rw [hempty]
          rfl
        · rw [Bool.not_eq_true] at hempty
          rw [hempty]
          cases execOk <;> rfl
  · unfold invokeModel
    dsimp only [loadBuildState]
    cases topologicalSortTargets targets with
    | error e => simp
    | ok names =>
      dsimp only
      cases planBuild ⟨cc, cxx, buildDir, kept, fs⟩ targets [] names with
      | error e => simp
      | ok p =>
        obtain ⟨a, b⟩ := p
        dsimp only
        by_cases hempty : (a.isEmpty && b.isEmpty) = true
        · rw [hempty]; simp
        · rw [Bool.not_eq_true] at hempty
          rw [hempty]
          cases execOk <;> simp
  · unfold invokeModel
    dsimp only [loadBuildState]
    cases topologicalSortTargets targets with
    | error e => rfl
    | ok names =>
      dsimp only
      cases planBuild ⟨cc, cxx, buildDir, [], fs⟩ targets [] names with
      | error e => rfl
      | ok p =>
        obtain ⟨a, b⟩ := p
        dsimp only
        by_cases hempty : (a.isEmpty && b.isEmpty) = true
        · rw [hempty]
          rfl
        · rw [Bool.not_eq_true] at hempty
          rw [hempty]
          cases execOk <;> rfl
  · unfold invokeModel
    dsimp only [loadBuildState]
    cases topologicalSortTargets targets with
    | error e => simp
    | ok names =>
      dsimp only
      cases planBuild ⟨cc, cxx, buildDir, [], fs⟩ targets [] names with
      | error e => simp
      | ok p =>
        obtain ⟨a, b⟩ := p
        dsimp only
        by_cases hempty : (a.isEmpty && b.isEmpty) = true
        · rw [hempty]; simp
        · rw [Bool.not_eq_true] at hempty
          rw [hempty]
          cases execOk <;> simp
  · unfold invokeModel
    dsimp only [loadBuildState]
    cases topologicalSortTargets targets with
    | error e => simp
    | ok names =>
      dsimp only
      cases planBuild ⟨cc, cxx, buildDir, [], fs⟩ targets [] names with
      | error e => simp
      | ok p =>
        obtain ⟨a, b⟩ := p
        dsimp only
        by_cases hempty : (a.isEmpty && b.isEmpty) = true
        · rw [hempty]; simp
        · rw [Bool.not_eq_true] at hempty
          rw [hempty]
          cases execOk with
          | false => simp
          | true =>
            intro hmem
            rcases List.mem_append.mp hmem with h | h
            · rcases List.mem_append.mp h with h2 | h2
              · simp at h2
              · rcases updateStates_warn_shape fs buildDir targets b []
                  "failed to load build state" h2 with ⟨n, hn⟩
                exact load_warn_ne_update n hn
            · cases saveOk with
              | false => simp at h
              | true => simp at h
  · intro stateFile
    unfold invokeModel
    cases topologicalSortTargets targets with
    | error e => rfl
    | ok names =>
      dsimp only
      cases planBuild ⟨cc, cxx, buildDir, (loadBuildState stateFile).1, fs⟩ targets [] names with
      | error e => rfl
      | ok p =>
        obtain ⟨a, b⟩ := p
        dsimp only
        by_cases hempty : (a.isEmpty && b.isEmpty) = true
        · rw [hempty]
          rfl
        · rw [Bool.not_eq_true] at hempty
          rw [hempty]
          cases execOk <;> rfl
  · intro stateFile cjs ljs
    unfold invokeModel
    dsimp only
    cases topologicalSortTargets targets with
    | error e =>
      intro hres
      exact absurd hres (by simp)
    | ok names =>
      dsimp only
      cases planBuild ⟨cc, cxx, buildDir, (loadBuildState stateFile).1, fs⟩ targets [] names with
      | error e =>
        intro hres
        exact absurd hres (by simp)
      | ok p =>
        obtain ⟨a, b⟩ := p
        dsimp only
        by_cases hempty : (a.isEmpty && b.isEmpty) = true
        · rw [hempty]
          intro hres
          injection hres with hres
          exact absurd hres (by simp)
        · rw [Bool.not_eq_true] at hempty
          rw [hempty]
          intro hres
          simp

/-- Evaluation of the topological sort on a one-target graph with no
dependencies, used to instantiate invocation-level theorems. -/
theorem topo_singleton (n : String) (u : buildUnit) (hdeps : u.dependencies = []) :
    topologicalSortTargets [(n, u)] = .ok [n] := by
  unfold topologicalSortTargets
  dsimp only
  have hbg : buildGraphAux [(n, u)] [(n, u)]
      (List.map (fun p => (p.1, ([] : List String))) [(n, u)],
       List.map (fun p => (p.1, (0 : Int))) [(n, u)]) =
      .ok ([(n, [])], [(n, 0)]) := by
    simp [buildGraphAux, addEdges, hdeps, except_bind_ok]
  rw [hbg, except_bind_ok]
  dsimp only
  have hq : sortStr (List.map (fun x => x.1)
      (List.filter (fun p => decide (p.2 = 0)) [(n, (0 : Int))])) = [n] := by
    simp [sortStr, List.insertionSort]
  rw [hq]
  have hk1 : kahnLoop [(n, [])] [n] [(n, (0 : Int))] [] = ([n], [(n, 0)]) := by
    rw [kahnLoop]
    have hadj : sortStr ((alookup [(n, [])] n).getD []) = [] := by
      simp [alookup, sortStr, List.insertionSort]
    rw [hadj]
    show kahnLoop [(n, [])] [] [(n, 0)] [n] = ([n], [(n, 0)])
    rw [kahnLoop]
  rw [hk1]
  simp

theorem state_errors_nonfatal_witness :
    (invokeModel "cc" "cxx" "b" [("t", ⟨"t", true, [], [], [], [], ""⟩)] .missing
      ⟨fun _ => none⟩ true false).1 =
      .ok (.built [] [⟨"t", [], [], pjoin "b" "t", [], true, false, "cc"⟩]) ∧
    "failed to save build state" ∈
      (invokeModel "cc" "cxx" "b" [("t", ⟨"t", true, [], [], [], [], ""⟩)] .missing
        ⟨fun _ => none⟩ true false).2 := by
  have hres : (invokeModel "cc" "cxx" "b" [("t", ⟨"t", true, [], [], [], [], ""⟩)] .missing
      ⟨fun _ => none⟩ true false).1 =
      .ok (.built [] [⟨"t", [], [], pjoin "b" "t", [], true, false, "cc"⟩]) := by
    unfold invokeModel
    rw [topo_singleton "t" ⟨"t", true, [], [], [], [], ""⟩ rfl]
    rfl
  refine ⟨hres, ?_⟩
  exact (state_errors_nonfatal "cc" "cxx" "b" [("t", ⟨"t", true, [], [], [], [], ""⟩)]
    ⟨fun _ => none⟩ true false []).2.2.2.2.2.2 .missing
    [] [⟨"t", [], [], pjoin "b" "t", [], true, false, "cc"⟩] hres

/-- A single-target project whose source, object and artifact all exist,
with the source hash matching the recorded one: with its record present
the plan is a no-op, without it the target recompiles and relinks. -/
def stTarget : buildUnit := ⟨"t", true, [⟨"m.c", "m.o", false⟩], [], [], [], ""⟩

/-- The filesystem for the C8 counterexample: source, object file and
artifact all present. -/
def stFs : FSModel :=
  ⟨fun p =>
    if p = "m.c" then some "h1"
    else if p = pjoin "b" "m.o" then some "ho"
    else if p = pjoin "b" "t" then some "ha"
    else none⟩

/-- The persisted record matching `stTarget` under `stFs`. -/
def stRecord : BuildState := ⟨[("m.c", "h1")], [], [], []⟩

/-- C8 counterexample: a load failure does not make the build proceed as
if no prior state existed, and a missing state file produces no warning.
When the record of `t` survives the corrupt load (as `json.Decode`
leaves already-decoded records in the map), the run plans no work, while
the run with no prior state compiles and links `t`; the surviving record
is still visible after the failed load; and the run with a missing state
file emits no warning at all, although the original claim asserts a
warning for a missing state file too. -/
theorem state_load_not_fresh :
    (invokeModel "cc" "cxx" "b" [("t", stTarget)] (.corrupt [("t", stRecord)])
        stFs true true).1 = .ok (.noWork ("qobs: " ++ noWorkPhrase)) ∧
    (invokeModel "cc" "cxx" "b" [("t", stTarget)] .missing stFs true true).1 =
      .ok (.built [⟨"m.c", pjoin "b" "m.o", [], false, "cc"⟩]
        [⟨"t", [pjoin "b" "m.o"], [], pjoin "b" "t", [], true, false, "cc"⟩]) ∧
    alookup (loadBuildState (.corrupt [("t", stRecord)])).1 "t" = some stRecord ∧
    (invokeModel "cc" "cxx" "b" [("t", stTarget)] .missing stFs true true).2 = [] := by
  refine ⟨?_, ?_, rfl, ?_⟩
  · unfold invokeModel
    rw [topo_singleton "t" stTarget rfl]
    rfl
  · unfold invokeModel
    rw [topo_singleton "t" stTarget rfl]
    rfl
  · unfold invokeModel
    rw [topo_singleton "t" stTarget rfl]
    rfl

/-! ### Infrastructure: membership through the Kahn loop -/

theorem alookup_isSome_of_mem_keys {α : Type} {m : List (String × α)} {k : String}
    (h : k ∈ m.map Prod.fst) : (alookup m k).isSome := by
  induction m with
  | nil => simp at h
  | cons p rest ih =>
    obtain ⟨k', v'⟩ := p
    by_cases hk : k' = k
    · simp [alookup_cons, hk]
    · simp only [List.map_cons, List.mem_cons] at h
      rcases h with h | h
      · exact absurd h.symm hk
      · simp only [alookup_cons, if_neg hk]
        exact ih h

theorem alookup_mem {α : Type} {m : List (String × α)} {k : String} {v : α}
    (h : alookup m k = some v) : (k, v) ∈ m := by
  induction m with
  | nil => simp at h
  | cons p rest ih =>
    obtain ⟨k', v'⟩ := p
    by_cases hk : k' = k
    · subst hk
      rw [alookup_cons, if_pos rfl] at h
      injection h with h
      subst h
      exact List.mem_cons_self _ _
    · rw [alookup_cons, if_neg hk] at h
      exact List.mem_cons_of_mem _ (ih h)

theorem relax_queue_mem (vs : List String) :
    ∀ (m : List (String × Int)) (q : List String) (v : String),
      v ∈ (relax vs m q).2 → v ∈ q ∨ v ∈ vs := by
  induction vs with
  | nil =>
    intro m q v hv
    exact Or.inl hv
  | cons w vs ih =>
    intro m q v hv
    simp only [relax] at hv
    by_cases hz : alookup (adecr m w) w = some 0
    · rw [if_pos hz] at hv
      rcases ih (adecr m w) (q ++ [w]) v hv with h | h
      · rcases List.mem_append.mp h with h | h
        · exact Or.inl h
        · right
          simp only [List.mem_singleton] at h
          simp [h]
      · right
        exact List.mem_cons_of_mem _ h
    · rw [if_neg hz] at hv
      rcases ih (adecr m w) q v hv with h | h
      · exact Or.inl h
      · exact Or.inr (List.mem_cons_of_mem _ h)

theorem relax_keys (vs : List String) :
    ∀ (m : List (String × Int)) (q : List String),
      (relax vs m q).1.map Prod.fst = m.map Prod.fst := by
  induction vs with
  | nil => intro m q; rfl
  | cons w vs ih =>
    intro m q
    simp only [relax]
    have hdec : (adecr m w).map Prod.fst = m.map Prod.fst := by
      simp only [adecr, List.map_map]
      apply List.map_congr_left
      intro p _
      by_cases h : p.1 = w <;> simp [h]
    by_cases hz : alookup (adecr m w) w = some 0
    · rw [if_pos hz, ih, hdec]
    · rw [if_neg hz, ih, hdec]

/-- Every name in the order produced by the Kahn loop satisfies any
predicate that holds of the initial queue, the initial order, and every
adjacency-list entry of the graph. -/
theorem kahnLoop_order_pred (graph : List (String × List String)) (P : String → Prop)
    (hg : ∀ p ∈ graph, ∀ v ∈ p.2, P v) :
    ∀ (queue : List String) (inDeg : List (String × Int)) (order : List String),
      (∀ v ∈ queue, P v) → (∀ v ∈ order, P v) →
      ∀ v ∈ (kahnLoop graph queue inDeg order).1, P v := by
  intro queue inDeg order
  induction queue, inDeg, order using kahnLoop.induct graph with
  | case1 inDeg order =>
    intro _ ho v hv
    rw [kahnLoop] at hv
    exact ho v hv
  | case2 inDeg order u rest ih =>
    intro hq ho v hv
    rw [kahnLoop] at hv
    refine ih ?_ ?_ v hv
    · intro w hw
      rcases relax_queue_mem _ _ _ w hw with h | h
      · exact hq w (List.mem_cons_of_mem _ h)
      · have hw2 : w ∈ (alookup graph u).getD [] := by
          have hperm := List.perm_insertionSort (fun a b => a ≤ b) ((alookup graph u).getD [])
          exact hperm.mem_iff.mp h
        cases hl : alookup graph u with
        | none => rw [hl] at hw2; simp at hw2
        | some adj =>
          rw [hl] at hw2
          exact hg (u, adj) (alookup_mem hl) w hw2
    · intro w hw
      rcases List.mem_append.mp hw with h | h
      · exact ho w h
      · simp only [List.mem_singleton] at h
        subst h
        exact hq w (List.mem_cons_self _ _)

theorem aincr_keys (m : List (String × Int)) (k : String) :
    (aincr m k).map Prod.fst = m.map Prod.fst := by
  unfold aincr
  induction m with
  | nil => rfl
  | cons p rest ih =>
    obtain ⟨k', v'⟩ := p
    by_cases hk : k' = k
    · simp [hk, ih]
    · simp [hk, ih]

theorem aappend_keys (m : List (String × List String)) (k x : String) :
    (aappend m k x).map Prod.fst = m.map Prod.fst := by
  unfold aappend
  induction m with
  | nil => rfl
  | cons p rest ih =>
    obtain ⟨k', v'⟩ := p
    by_cases hk : k' = k
    · simp [hk, ih]
    · simp [hk, ih]

theorem aappend_val_mem (m : List (String × List String)) (k x : String)
    (p : String × List String) (hp : p ∈ aappend m k x) (v : String) (hv : v ∈ p.2) :
    v = x ∨ ∃ p0 ∈ m, v ∈ p0.2 := by
  unfold aappend at hp
  rcases List.mem_map.mp hp with ⟨p0, hp0, heq⟩
  by_cases hk : p0.1 = k
  · rw [if_pos hk] at heq
    rw [← heq] at hv
    simp only at hv
    rcases List.mem_append.mp hv with h | h
    · exact Or.inr ⟨p0, hp0, h⟩
    · simp only [List.mem_singleton] at h
      exact Or.inl h
  · rw [if_neg hk] at heq
    subst heq
    exact Or.inr ⟨p0, hp0, hv⟩

theorem addEdges_inv (targets : List (String × buildUnit)) (name : String)
    (P : String → Prop) (hname : P name) :
    ∀ (deps : List String) (g : List (String × List String)) (i : List (String × Int))
      (g' : List (String × List String)) (i' : List (String × Int)),
      addEdges targets name deps (g, i) = .ok (g', i') →
      (∀ p ∈ g, ∀ v ∈ p.2, P v) →
      ((∀ p ∈ g', ∀ v ∈ p.2, P v) ∧ g'.map Prod.fst = g.map Prod.fst ∧
        i'.map Prod.fst = i.map Prod.fst) := by
  intro deps
  induction deps with
  | nil =>
    intro g i g' i' hok hg
    unfold addEdges at hok
    injection hok with hok
    injection hok with h1 h2
    subst h1
    subst h2
    exact ⟨hg, rfl, rfl⟩
  | cons d rest ih =>
    intro g i g' i' hok hg
    unfold addEdges at hok
    by_cases hd : (alookup targets d).isSome
    · rw [if_pos hd] at hok
      have hg2 : ∀ p ∈ aappend g d name, ∀ v ∈ p.2, P v := by
        intro p hp v hv
        rcases aappend_val_mem g d name p hp v hv with h | ⟨p0, hp0, hv0⟩
        · subst h; exact hname
        · exact hg p0 hp0 v hv0
      rcases ih (aappend g d name) (aincr i name) g' i' hok hg2 with ⟨h1, h2, h3⟩
      exact ⟨h1, by rw [h2, aappend_keys], by rw [h3, aincr_keys]⟩
    · rw [if_neg hd] at hok
      exact Except.noConfusion hok

theorem buildGraphAux_inv (targets : List (String × buildUnit)) (P : String → Prop)
    (hP : ∀ p ∈ targets, P p.1) :
    ∀ (l : List (String × buildUnit)) (g : List (String × List String))
      (i : List (String × Int)) (g' : List (String × List String)) (i' : List (String × Int)),
      (∀ p ∈ l, p ∈ targets) →
      buildGraphAux targets l (g, i) = .ok (g', i') →
      (∀ p ∈ g, ∀ v ∈ p.2, P v) →
      ((∀ p ∈ g', ∀ v ∈ p.2, P v) ∧ g'.map Prod.fst = g.map Prod.fst ∧
        i'.map Prod.fst = i.map Prod.fst) := by
  intro l
  induction l with
  | nil =>
    intro g i g' i' _ hok hg
    unfold buildGraphAux at hok
    injection hok with hok
    injection hok with h1 h2
    subst h1
    subst h2
    exact ⟨hg, rfl, rfl⟩
  | cons p rest ih =>
    intro g i g' i' hsub hok hg
    obtain ⟨name, t⟩ := p
    unfold buildGraphAux at hok
    cases hae : addEdges targets name t.dependencies (g, i) with
    | error e =>
      rw [hae, except_bind_error] at hok
      exact Except.noConfusion hok
    | ok gi' =>
      rw [hae, except_bind_ok] at hok
      obtain ⟨g2, i2⟩ := gi'
      have hPname : P name := hP (name, t) (hsub (name, t) (List.mem_cons_self _ _))
      rcases addEdges_inv targets name P hPname t.dependencies g i g2 i2 hae hg with
        ⟨h1, h2, h3⟩
      rcases ih g2 i2 g' i' (fun q hq => hsub q (List.mem_cons_of_mem _ hq)) hok h1 with
        ⟨h4, h5, h6⟩
      exact ⟨h4, by rw [h5, h2], by rw [h6, h3]⟩

/-- Every name the topological sort returns is a key of the target map. -/
theorem topo_names_lookup (targets : List (String × buildUnit)) (names : List String)
    (h : topologicalSortTargets targets = .ok names) :
    ∀ n ∈ names, (alookup targets n).isSome := by
  unfold topologicalSortTargets at h
  dsimp only at h
  cases hbg : buildGraphAux targets targets
      (List.map (fun p => (p.1, ([] : List String))) targets,
       List.map (fun p => (p.1, (0 : Int))) targets) with
  | error e =>
    rw [hbg, except_bind_error] at h
    exact Except.noConfusion h
  | ok gi =>
    rw [hbg, except_bind_ok] at h
    obtain ⟨graph, inDeg⟩ := gi
    dsimp only at h
    set P : String → Prop := fun v => (alookup targets v).isSome with hPdef
    have hinv := buildGraphAux_inv targets P
      (fun p hp => by
        have : p.1 ∈ targets.map Prod.fst := List.mem_map.mpr ⟨p, hp, rfl⟩
        exact alookup_isSome_of_mem_keys this)
      targets _ _ graph inDeg (fun q hq => hq) hbg
      (by
        intro p hp v hv
        rcases List.mem_map.mp hp with ⟨q, hq, heq⟩
        rw [← heq] at hv
        simp at hv)
    rcases hinv with ⟨hgraph, _, hkeys⟩
    have hkeys0 : (List.map (fun p => (p.1, (0 : Int))) targets).map Prod.fst =
        targets.map Prod.fst := by simp
    have hqueue : ∀ v ∈ sortStr (List.map (fun x => x.1)
        (List.filter (fun p => decide (p.2 = 0)) inDeg)), P v := by
      intro v hv
      have hperm := List.perm_insertionSort (fun a b => a ≤ b)
        (List.map (fun x => x.1) (List.filter (fun p => decide (p.2 = 0)) inDeg))
      have hv2 := hperm.mem_iff.mp hv
      rcases List.mem_map.mp hv2 with ⟨p, hp, heq⟩
      have hpk : p.1 ∈ inDeg.map Prod.fst :=
        List.mem_map.mpr ⟨p, List.mem_of_mem_filter hp, rfl⟩
      rw [hkeys, hkeys0] at hpk
      subst heq
      exact alookup_isSome_of_mem_keys hpk
    have horder := kahnLoop_order_pred graph P hgraph
      (sortStr (List.map (fun x => x.1) (List.filter (fun p => decide (p.2 = 0)) inDeg)))
      inDeg [] hqueue (by simp)
    by_cases hlen : (kahnLoop graph
        (sortStr (List.map (fun x => x.1) (List.filter (fun p => decide (p.2 = 0)) inDeg)))
        inDeg []).1.length = targets.length
    · rw [if_pos hlen] at h
      injection h with h
      subst h
      exact horder
    · rw [if_neg hlen] at h
      exact Except.noConfusion h

/-! ### C2: a repeated build after success plans no work -/

theorem hashSources_lookup (fs : FSModel) :
    ∀ (srcs : List SourceFile) (l : List (String × String)),
      hashSources fs srcs = .ok l →
      ∀ s ∈ srcs, ∃ h, fs.file s.src = some h ∧ alookup l s.src = some h := by
  intro srcs
  induction srcs with
  | nil =>
    intro l _ s hs
    simp at hs
  | cons s0 rest ih =>
    intro l hok s hs
    unfold hashSources at hok
    cases hfs : fs.file s0.src with
    | none =>
      rw [hfs] at hok
      exact Except.noConfusion hok
    | some h0 =>
      rw [hfs] at hok
      dsimp only at hok
      cases hr : hashSources fs rest with
      | error e =>
        rw [hr, except_bind_error] at hok
        exact Except.noConfusion hok
      | ok r =>
        rw [hr, except_bind_ok] at hok
        injection hok with hok
        subst hok
        rcases List.mem_cons.mp hs with h | h
        · subst h
          exact ⟨h0, hfs, by rw [alookup_cons, if_pos rfl]⟩
        · rcases ih r hr s h with ⟨hh, hfs2, hlook⟩
          by_cases heq : s0.src = s.src
          · refine ⟨h0, ?_, by rw [alookup_cons, if_pos heq]⟩
            rw [← heq, hfs]
          · exact ⟨hh, hfs2, by rw [alookup_cons, if_neg heq]; exact hlook⟩

theorem hashDeps_lookup (fs : FSModel) (buildDir : String) :
    ∀ (deps : List String) (d : String) (h : String), d ∈ deps →
      fs.file (pjoin buildDir d) = some h →
      alookup (hashDeps fs buildDir deps) d = some h := by
  intro deps
  induction deps with
  | nil =>
    intro d h hd
    simp at hd
  | cons d0 rest ih =>
    intro d h hd hfs
    unfold hashDeps
    cases hfs0 : fs.file (pjoin buildDir d0) with
    | none =>
      rcases List.mem_cons.mp hd with h1 | h1
      · subst h1
        rw [hfs] at hfs0
        exact Option.noConfusion hfs0
      · exact ih d h h1 hfs
    | some h0 =>
      by_cases heq : d0 = d
      · subst heq
        rw [hfs] at hfs0
        injection hfs0 with hfs0
        subst hfs0
        rw [alookup_cons, if_pos rfl]
      · rcases List.mem_cons.mp hd with h1 | h1
        · exact absurd h1.symm heq
        · rw [alookup_cons, if_neg heq]
          exact ih d h h1 hfs

theorem collectCompileJobs_clean (g : BuildEnv) (t : buildUnit) (st : BuildState) :
    ∀ srcs : List SourceFile,
      (∀ s ∈ srcs, (g.fs.file (pjoin g.buildDir s.obj)).isSome ∧
        ∃ h, g.fs.file s.src = some h ∧ alookup st.sources s.src = some h) →
      collectCompileJobs g t (some st) srcs = .ok [] := by
  intro srcs
  induction srcs with
  | nil => intro _; rfl
  | cons s0 rest ih =>
    intro hcl
    rcases hcl s0 (List.mem_cons_self _ _) with ⟨hobj, hh, hfs, hlook⟩
    unfold collectCompileJobs
    dsimp only
    have hdirty : isSourceFileDirty g s0 (pjoin g.buildDir s0.obj) (some st) = .ok false := by
      unfold isSourceFileDirty
      have hobj2 : (g.fs.file (pjoin g.buildDir s0.obj)).isNone = false := by
        rcases Option.isSome_iff_exists.mp hobj with ⟨x, hx⟩
        rw [hx]
        rfl
      rw [if_neg (by rw [hobj2]; exact Bool.noConfusion)]
      dsimp only
      rw [hfs]
      dsimp only
      rw [hlook]
      simp
    rw [hdirty, except_bind_ok]
    rw [ih (fun s hs => hcl s (List.mem_cons_of_mem _ hs)), except_bind_ok]
    rfl

theorem depNeedsRelink_clean (g : BuildEnv) (st : BuildState) :
    ∀ deps : List String,
      (∀ d ∈ deps, ∃ h, g.fs.file (pjoin g.buildDir d) = some h ∧
        alookup st.dependencies d = some h) →
      depNeedsRelink g (some st) [] deps = false := by
  intro deps
  induction deps with
  | nil => intro _; rfl
  | cons d0 rest ih =>
    intro hcl
    rcases hcl d0 (List.mem_cons_self _ _) with ⟨hh, hfs, hlook⟩
    unfold depNeedsRelink
    rw [if_neg (by simp)]
    rw [hfs]
    dsimp only
    rw [hlook]
    rw [if_neg (by simp)]
    exact ih (fun d hd => hcl d (List.mem_cons_of_mem _ hd))

theorem planTarget_clean (g : BuildEnv) (t : buildUnit) (st : BuildState)
    (hstate : alookup g.buildState t.name = some st)
    (hupd : updateBuildState g.fs g.buildDir t = .ok st)
    (hart : (g.fs.file (pjoin g.buildDir t.name)).isSome)
    (hobj : ∀ s ∈ t.sources, (g.fs.file (pjoin g.buildDir s.obj)).isSome)
    (hdep : ∀ d ∈ t.dependencies, (g.fs.file (pjoin g.buildDir d)).isSome) :
    planTarget g [] t = .ok ([], false) := by
  have hsrcs : ∃ l, hashSources g.fs t.sources = .ok l ∧
      st = ⟨l, hashDeps g.fs g.buildDir t.dependencies, t.cflags, t.ldflags⟩ := by
    unfold updateBuildState at hupd
    cases hhs : hashSources g.fs t.sources with
    | error e =>
      rw [hhs, except_bind_error] at hupd
      exact Except.noConfusion hupd
    | ok l =>
      rw [hhs, except_bind_ok] at hupd
      injection hupd with hupd
      exact ⟨l, rfl, hupd.symm⟩
  rcases hsrcs with ⟨l, hhs, hst⟩
  unfold planTarget
  dsimp only
  rw [hstate]
  have hcollect : collectCompileJobs g t (some st) t.sources = .ok [] := by
    apply collectCompileJobs_clean
    intro s hs
    refine ⟨hobj s hs, ?_⟩
    rcases hashSources_lookup g.fs t.sources l hhs s hs with ⟨h, hfs, hlook⟩
    exact ⟨h, hfs, by rw [hst]; exact hlook⟩
  rw [hcollect, except_bind_ok]
  have hr1 : (g.fs.file (pjoin g.buildDir t.name)).isNone = false := by
    rcases Option.isSome_iff_exists.mp hart with ⟨x, hx⟩
    rw [hx]
    rfl
  have hr2 : (decide (st.cflags ≠ t.cflags) || decide (st.ldflags ≠ t.ldflags)) = false := by
    rw [hst]
    simp
  have hr3 : depNeedsRelink g (some st) [] t.dependencies = false := by
    apply depNeedsRelink_clean
    intro d hd
    rcases Option.isSome_iff_exists.mp (hdep d hd) with ⟨h, hfs⟩
    refine ⟨h, hfs, ?_⟩
    rw [hst]
    exact hashDeps_lookup g.fs g.buildDir t.dependencies d h hd hfs
  rw [hr1]
  dsimp only
  rw [hr2, hr3]
  rfl

theorem planBuild_clean (g : BuildEnv) (targets : List (String × buildUnit)) :
    ∀ names : List String,
      (∀ n ∈ names, ∃ t, alookup targets n = some t ∧ t.name = n ∧
        (∃ st, alookup g.buildState n = some st ∧
          updateBuildState g.fs g.buildDir t = .ok st) ∧
        (g.fs.file (pjoin g.buildDir n)).isSome ∧
        (∀ s ∈ t.sources, (g.fs.file (pjoin g.buildDir s.obj)).isSome) ∧
        (∀ d ∈ t.dependencies, (g.fs.file (pjoin g.buildDir d)).isSome)) →
      planBuild g targets [] names = .ok ([], []) := by
  intro names
  induction names with
  | nil => intro _; rfl
  | cons n rest ih =>
    intro hcl
    rcases hcl n (List.mem_cons_self _ _) with
      ⟨t, hlook, hname, ⟨st, hstlook, hupd⟩, hart, hobj, hdep⟩
    unfold planBuild
    rw [hlook]
    dsimp only [Option.getD_some]
    have hpt : planTarget g [] t = .ok ([], false) := by
      apply planTarget_clean g t st _ hupd _ hobj hdep
      · rw [hname]
        exact hstlook
      · rw [hname]
        exact hart
    rw [hpt, except_bind_ok]
    dsimp only
    rw [ih (fun m hm => hcl m (List.mem_cons_of_mem _ hm)), except_bind_ok]
    rfl

/-- C2.  Immediately after a successful build in which every link job
succeeded and the state file was saved — i.e. every target's record is
exactly `updateBuildState` against the unchanged filesystem, and all
artifacts and object files exist — a second run over the same targets
plans zero compile jobs and zero link jobs and prints the line
`qobs: no work to do.` instead of building. -/
theorem no_work_after_build (cc cxx buildDir : String)
    (targets : List (String × buildUnit)) (state : List (String × BuildState))
    (fs : FSModel) (names : List String) (execOk saveOk : Bool)
    (hname : ∀ p ∈ targets, (p.2 : buildUnit).name = p.1)
    (htopo : topologicalSortTargets targets = .ok names)
    (hstate : ∀ p ∈ targets, ∃ st, updateBuildState fs buildDir p.2 = .ok st ∧
      alookup state p.1 = some st)
    (hart : ∀ p ∈ targets, (fs.file (pjoin buildDir p.1)).isSome)
    (hobj : ∀ p ∈ targets, ∀ s ∈ (p.2 : buildUnit).sources,
      (fs.file (pjoin buildDir s.obj)).isSome)
    (hdep : ∀ p ∈ targets, ∀ d ∈ (p.2 : buildUnit).dependencies,
      (fs.file (pjoin buildDir d)).isSome) :
    planBuild ⟨cc, cxx, buildDir, state, fs⟩ targets [] names = .ok ([], []) ∧
    (invokeModel cc cxx buildDir targets (.valid state) fs execOk saveOk).1 =
      .ok (.noWork ("qobs: " ++ noWorkPhrase)) := by
  have hplan : planBuild ⟨cc, cxx, buildDir, state, fs⟩ targets [] names = .ok ([], []) := by
    apply planBuild_clean
    intro n hn
    have hsome := topo_names_lookup targets names htopo n hn
    rcases Option.isSome_iff_exists.mp hsome with ⟨t, hlook⟩
    have hmem := alookup_mem hlook
    refine ⟨t, hlook, hname (n, t) hmem, ?_, hart (n, t) hmem, hobj (n, t) hmem,
      hdep (n, t) hmem⟩
    rcases hstate (n, t) hmem with ⟨st, hupd, hstlook⟩
    exact ⟨st, hstlook, hupd⟩
  refine ⟨hplan, ?_⟩
  unfold invokeModel
  rw [htopo]
  dsimp only [loadBuildState]
  rw [hplan]
  rfl

/-- Witness for C2: one already-built target with up-to-date record over
an unchanged filesystem plans nothing and prints the no-work line. -/
theorem no_work_after_build_witness :
    planBuild ⟨"cc", "cxx", "b", [("t", ⟨[], [], [], []⟩)], ⟨fun _ => some "h"⟩⟩
      [("t", ⟨"t", true, [], [], [], [], ""⟩)] [] ["t"] = .ok ([], []) ∧
    (invokeModel "cc" "cxx" "b" [("t", ⟨"t", true, [], [], [], [], ""⟩)]
      (.valid [("t", ⟨[], [], [], []⟩)]) ⟨fun _ => some "h"⟩ true true).1 =
      .ok (.noWork ("qobs: " ++ noWorkPhrase)) := by
  apply no_work_after_build
  · intro p hp
    simp only [List.mem_singleton] at hp
    subst hp
    rfl
  · exact topo_singleton "t" ⟨"t", true, [], [], [], [], ""⟩ rfl
  · intro p hp
    simp only [List.mem_singleton] at hp
    subst hp
    exact ⟨⟨[], [], [], []⟩, rfl, rfl⟩
  · intro p hp
    simp only [List.mem_singleton] at hp
    subst hp
    rfl
  · intro p hp
    simp only [List.mem_singleton] at hp
    subst hp
    intro s hs
    simp at hs
  · intro p hp
    simp only [List.mem_singleton] at hp
    subst hp
    intro d hd
    simp at hd

/-! ### C6: infrastructure for the cycle-error characterization -/

/-- The dependency list of a named target (empty for unknown names). -/
def depsOf (targets : List (String × buildUnit)) (n : String) : List String :=
  match alookup targets n with
  | some t => t.dependencies
  | none => []

/-- `x` depends directly on `y`. -/
def dependsOn (targets : List (String × buildUnit)) (x y : String) : Prop :=
  y ∈ depsOf targets x

theorem alookup_of_mem_nodup {α : Type} {m : List (String × α)} {k : String} {v : α}
    (hmem : (k, v) ∈ m) (hnd : (m.map Prod.fst).Nodup) : alookup m k = some v := by
  induction m with
  | nil => simp at hmem
  | cons p rest ih =>
    obtain ⟨k', v'⟩ := p
    simp only [List.map_cons, List.nodup_cons] at hnd
    rcases List.mem_cons.mp hmem with h | h
    · injection h with h1 h2
      subst h1
      subst h2
      rw [alookup_cons, if_pos rfl]
    · have hk : ¬(k' = k) := by
        intro he
        subst he
        exact hnd.1 (List.mem_map.mpr ⟨(k', v), h, rfl⟩)
      rw [alookup_cons, if_neg hk]
      exact ih h hnd.2

theorem alookup_map_const {α β : Type} (m : List (String × α)) (c : β) (k : String) :
    alookup (m.map (fun p => (p.1, c))) k = (alookup m k).map (fun _ => c) := by
  induction m with
  | nil => rfl
  | cons p rest ih =>
    obtain ⟨k', v'⟩ := p
    by_cases hk : k' = k
    · simp [alookup_cons, hk]
    · simp only [List.map_cons, alookup_cons, if_neg hk]
      exact ih

theorem alookup_pmap {α : Type} (f : α → α) (m : List (String × α)) (k k' : String) :
    alookup (m.map (fun p => if p.1 = k then (p.1, f p.2) else p)) k' =
      if k' = k then (alookup m k').map f else alookup m k' := by
  induction m with
  | nil => by_cases h : k' = k <;> simp [h]
  | cons p rest ih =>
    obtain ⟨k0, v0⟩ := p
    simp only [List.map_cons]
    by_cases h0 : k0 = k
    · rw [if_pos h0]
      by_cases hc : k0 = k'
      · rw [alookup_cons, if_pos hc, alookup_cons, if_pos hc,
          if_pos (by rw [← hc, h0] : k' = k)]
        rfl
      · rw [alookup_cons, if_neg hc, alookup_cons, if_neg hc, ih]
    · rw [if_neg h0]
      by_cases hc : k0 = k'
      · rw [alookup_cons, if_pos hc, alookup_cons, if_pos hc,
          if_neg (fun he : k' = k => h0 (hc.trans he))]
      · rw [alookup_cons, if_neg hc, alookup_cons, if_neg hc, ih]

theorem alookup_aappend (m : List (String × List String)) (k x : String) (k' : String) :
    alookup (aappend m k x) k' =
      if k' = k then (alookup m k').map (fun l => l ++ [x]) else alookup m k' :=
  alookup_pmap (fun l => l ++ [x]) m k k'

theorem alookup_aincr (m : List (String × Int)) (k : String) (k' : String) :
    alookup (aincr m k) k' =
      if k' = k then (alookup m k').map (fun c => c + 1) else alookup m k' :=
  alookup_pmap (fun c => c + 1) m k k'

theorem alookup_adecr_all (m : List (String × Int)) (k : String) (k' : String) :
    alookup (adecr m k) k' =
      if k' = k then (alookup m k').map (fun c => c - 1) else alookup m k' :=
  alookup_pmap (fun c => c - 1) m k k'

/-- Splitting an unprocessed-dependency count at one newly processed name. -/
theorem countP_append_order (l : List String) (order : List String) (u : String)
    (hu : u ∉ order) :
    l.countP (fun d => decide (d ∉ order)) =
      l.countP (fun d => decide (d ∉ order ++ [u])) + l.count u := by
  induction l with
  | nil => rfl
  | cons a rest ih =>
    rw [List.countP_cons, List.countP_cons, List.count_cons]
    by_cases hau : a = u
    · subst hau
      have h1 : (decide (a ∉ order)) = true := by simpa using hu
      have h2 : (decide (a ∉ order ++ [a])) = false := by simp
      rw [h1, h2]
      simp only [if_pos rfl, Bool.false_eq_true, if_false, beq_self_eq_true]
      omega
    · have h3 : (decide (a ∉ order ++ [u])) = decide (a ∉ order) := by
        by_cases ha : a ∈ order
        · simp [ha]
        · have : a ∉ order ++ [u] := by
            intro hc
            rcases List.mem_append.mp hc with h | h
            · exact ha h
            · exact hau (by simpa using h)
          simp [this, ha]
      have h4 : (a == u) = false := by simpa using hau
      rw [h3, h4]
      simp only [Bool.false_eq_true, if_false]
      omega

theorem countP_order_nil (l : List String) :
    l.countP (fun d => decide (d ∉ ([] : List String))) = l.length := by
  induction l with
  | nil => rfl
  | cons a rest ih =>
    simp [List.countP_cons, ih]

theorem countP_eq_zero_iff (l : List String) (order : List String) :
    l.countP (fun d => decide (d ∉ order)) = 0 ↔ ∀ d ∈ l, d ∈ order := by
  rw [List.countP_eq_zero]
  constructor
  · intro h d hd
    have := h d hd
    simpa using this
  · intro h d hd
    simpa using h d hd

theorem countP_pos_iff (l : List String) (order : List String) :
    0 < l.countP (fun d => decide (d ∉ order)) ↔ ∃ d ∈ l, d ∉ order := by
  rw [List.countP_pos_iff]
  constructor
  · intro ⟨d, hd, hp⟩
    exact ⟨d, hd, by simpa using hp⟩
  · intro ⟨d, hd, hp⟩
    exact ⟨d, hd, by simpa using hp⟩

/-- Splits of `order ++ [u]` are the final split or splits of `order`. -/
theorem append_singleton_split (order : List String) (u : String) (pre : List String)
    (n : String) (post : List String) (h : order ++ [u] = pre ++ n :: post) :
    (pre = order ∧ n = u ∧ post = []) ∨
      (∃ post', post = post' ++ [u] ∧ order = pre ++ n :: post') := by
  rcases List.eq_nil_or_concat post with hpost | ⟨post', x, hpost⟩
  · subst hpost
    left
    have h2 : order ++ [u] = pre ++ [n] := h
    rcases List.append_inj' h2 rfl with ⟨h3, h4⟩
    injection h4 with h5 _
    exact ⟨h3.symm, h5.symm, rfl⟩
  · subst hpost
    right
    have h2 : order ++ [u] = (pre ++ n :: post') ++ [x] := by
      rw [h]
      simp
    rcases List.append_inj' h2 rfl with ⟨hord, hux⟩
    injection hux with hux _
    refine ⟨post', by rw [hux, List.concat_eq_append], hord⟩


/-- Per-name contribution of an iteration list to a counted quantity of
the build graph construction. -/
def sumOver (l : List (String × buildUnit)) (v : String) (f : buildUnit → Nat) : Nat :=
  (l.map (fun p => if p.1 = v then f p.2 else 0)).sum

@[simp] theorem sumOver_nil (v : String) (f : buildUnit → Nat) : sumOver [] v f = 0 := rfl

theorem sumOver_cons (n : String) (t : buildUnit) (rest : List (String × buildUnit))
    (v : String) (f : buildUnit → Nat) :
    sumOver ((n, t) :: rest) v f = (if n = v then f t else 0) + sumOver rest v f := by
  simp [sumOver]

theorem sumOver_eq_zero_of_not_mem {l : List (String × buildUnit)} {v : String}
    (h : v ∉ l.map Prod.fst) (f : buildUnit → Nat) : sumOver l v f = 0 := by
  induction l with
  | nil => rfl
  | cons p rest ih =>
    obtain ⟨n, t⟩ := p
    simp only [List.map_cons, List.mem_cons] at h
    push_neg at h
    rw [sumOver_cons, if_neg (fun he => h.1 he.symm), ih h.2]

/-- Under distinct keys, `sumOver` collapses to the looked-up entry. -/
theorem sumOver_eq {l : List (String × buildUnit)} (hnd : (l.map Prod.fst).Nodup)
    (v : String) (f : buildUnit → Nat) :
    sumOver l v f = ((alookup l v).map f).getD 0 := by
  induction l with
  | nil => rfl
  | cons p rest ih =>
    obtain ⟨n, t⟩ := p
    simp only [List.map_cons, List.nodup_cons] at hnd
    rw [sumOver_cons, alookup_cons]
    by_cases hnv : n = v
    · subst hnv
      rw [if_pos rfl, if_pos rfl]
      have : sumOver rest n f = 0 :=
        sumOver_eq_zero_of_not_mem hnd.1 f
      simp [this]
    · rw [if_neg hnv, if_neg hnv, ih hnd.2]
      omega

/-- Effect of the edge-insertion loop on the graph: the popped node's
adjacency lists each receive one copy of `name` per occurrence among the
dependencies. -/
theorem addEdges_graph (targets : List (String × buildUnit)) (name : String) :
    ∀ (deps : List String) (g : List (String × List String)) (i : List (String × Int))
      (g' : List (String × List String)) (i' : List (String × Int)),
      addEdges targets name deps (g, i) = .ok (g', i') →
      ∀ u, alookup g' u =
        (alookup g u).map (fun l => l ++ List.replicate (deps.count u) name) := by
  intro deps
  induction deps with
  | nil =>
    intro g i g' i' hok u
    unfold addEdges at hok
    injection hok with hok
    injection hok with h1 h2
    subst h1
    subst h2
    cases halg : alookup g u <;> simp
  | cons d rest ih =>
    intro g i g' i' hok u
    unfold addEdges at hok
    by_cases hd : (alookup targets d).isSome
    · rw [if_pos hd] at hok
      have h1 := ih (aappend g d name) (aincr i name) g' i' hok u
      rw [h1, alookup_aappend]
      by_cases hu : u = d
      · subst hu
        rw [if_pos rfl]
        cases halg : alookup g u
        · rfl
        · simp [List.count_cons_self, List.replicate_succ]
      · rw [if_neg hu, List.count_cons_of_ne hu]
    · rw [if_neg hd] at hok
      exact Except.noConfusion hok

/-- Effect of the edge-insertion loop on the in-degree table: the current
target's in-degree grows by the number of its dependencies. -/
theorem addEdges_inDeg (targets : List (String × buildUnit)) (name : String) :
    ∀ (deps : List String) (g : List (String × List String)) (i : List (String × Int))
      (g' : List (String × List String)) (i' : List (String × Int)),
      addEdges targets name deps (g, i) = .ok (g', i') →
      ∀ v, alookup i' v =
        if v = name then (alookup i v).map (fun c => c + (deps.length : Int))
        else alookup i v := by
  intro deps
  induction deps with
  | nil =>
    intro g i g' i' hok v
    unfold addEdges at hok
    injection hok with hok
    injection hok with h1 h2
    subst h1
    subst h2
    by_cases hv : v = name
    · rw [if_pos hv]
      cases halg : alookup i v <;> simp
    · rw [if_neg hv]
  | cons d rest ih =>
    intro g i g' i' hok v
    unfold addEdges at hok
    by_cases hd : (alookup targets d).isSome
    · rw [if_pos hd] at hok
      have h1 := ih (aappend g d name) (aincr i name) g' i' hok v
      rw [h1, alookup_aincr]
      by_cases hv : v = name
      · rw [if_pos hv, if_pos hv, if_pos hv]
        cases halg : alookup i v
        · rfl
        · simp only [Option.map_some', List.length_cons]
          refine congrArg some ?_
          push_cast
          ring
      · rw [if_neg hv, if_neg hv, if_neg hv]
    · rw [if_neg hd] at hok
      exact Except.noConfusion hok

/-- The edge-insertion loop succeeds when every dependency is a known
target. -/
theorem addEdges_ok (targets : List (String × buildUnit)) (name : String) :
    ∀ (deps : List String) (g : List (String × List String)) (i : List (String × Int)),
      (∀ d ∈ deps, (alookup targets d).isSome) →
      ∃ gi, addEdges targets name deps (g, i) = .ok gi := by
  intro deps
  induction deps with
  | nil =>
    intro g i _
    exact ⟨(g, i), rfl⟩
  | cons d rest ih =>
    intro g i hdeps
    unfold addEdges
    rw [if_pos (hdeps d (List.mem_cons_self _ _))]
    exact ih (aappend g d name) (aincr i name)
      (fun x hx => hdeps x (List.mem_cons_of_mem _ hx))

/-- Counting characterization of the constructed graph: each existing
adjacency list `graph[u]` gains, per iterated target `v`, one entry `v`
for every occurrence of `u` among `v`'s dependencies. -/
theorem buildGraphAux_count (targets : List (String × buildUnit)) :
    ∀ (l : List (String × buildUnit)) (g : List (String × List String))
      (i : List (String × Int)) (g' : List (String × List String)) (i' : List (String × Int)),
      buildGraphAux targets l (g, i) = .ok (g', i') →
      ∀ u, (alookup g u).isSome →
        ((alookup g' u).isSome ∧ ∀ v, ((alookup g' u).getD []).count v =
          ((alookup g u).getD []).count v + sumOver l v (fun t => t.dependencies.count u)) := by
  intro l
  induction l with
  | nil =>
    intro g i g' i' hok u hu
    unfold buildGraphAux at hok
    injection hok with hok
    injection hok with h1 h2
    subst h1
    subst h2
    exact ⟨hu, fun v => by simp⟩
  | cons p rest ih =>
    intro g i g' i' hok u hu
    obtain ⟨n, t⟩ := p
    unfold buildGraphAux at hok
    cases hae : addEdges targets n t.dependencies (g, i) with
    | error e =>
      rw [hae, except_bind_error] at hok
      exact Except.noConfusion hok
    | ok gi1 =>
      rw [hae, except_bind_ok] at hok
      obtain ⟨g1, i1⟩ := gi1
      have hg1 := addEdges_graph targets n t.dependencies g i g1 i1 hae u
      obtain ⟨l0, hl0⟩ := Option.isSome_iff_exists.mp hu
      have hg1u : alookup g1 u = some (l0 ++ List.replicate (t.dependencies.count u) n) := by
        rw [hg1, hl0]
        rfl
      have hsome1 : (alookup g1 u).isSome := by
        rw [hg1u]
        rfl
      rcases ih g1 i1 g' i' hok u hsome1 with ⟨hsome', hcount⟩
      refine ⟨hsome', fun v => ?_⟩
      rw [hcount v, hg1u, hl0]
      simp only [Option.getD_some, List.count_append, List.count_replicate, sumOver_cons]
      by_cases hnv : n = v
      · subst hnv
        simp only [beq_self_eq_true, if_pos rfl]
        omega
      · have : (n == v) = false := by simpa using hnv
        rw [this, if_neg hnv]
        simp

/-- Counting characterization of the constructed in-degree table: each
target's in-degree grows by the total number of its dependencies. -/
theorem buildGraphAux_inDeg (targets : List (String × buildUnit)) :
    ∀ (l : List (String × buildUnit)) (g : List (String × List String))
      (i : List (String × Int)) (g' : List (String × List String)) (i' : List (String × Int)),
      buildGraphAux targets l (g, i) = .ok (g', i') →
      ∀ v, alookup i' v =
        (alookup i v).map
          (fun c => c + (sumOver l v (fun t => t.dependencies.length) : Int)) := by
  intro l
  induction l with
  | nil =>
    intro g i g' i' hok v
    unfold buildGraphAux at hok
    injection hok with hok
    injection hok with h1 h2
    subst h1
    subst h2
    cases halg : alookup i v <;> simp
  | cons p rest ih =>
    intro g i g' i' hok v
    obtain ⟨n, t⟩ := p
    unfold buildGraphAux at hok
    cases hae : addEdges targets n t.dependencies (g, i) with
    | error e =>
      rw [hae, except_bind_error] at hok
      exact Except.noConfusion hok
    | ok gi1 =>
      rw [hae, except_bind_ok] at hok
      obtain ⟨g1, i1⟩ := gi1
      have hi1 := addEdges_inDeg targets n t.dependencies g i g1 i1 hae v
      have hrec := ih g1 i1 g' i' hok v
      rw [hrec, hi1, sumOver_cons]
      by_cases hv : v = n
      · rw [if_pos hv, if_pos (by rw [hv] : n = v)]
        cases halg : alookup i v
        · rfl
        · simp only [Option.map_some']
          refine congrArg some ?_
          push_cast
          ring
      · rw [if_neg hv, if_neg (fun he => hv he.symm)]
        simp

/-- The graph construction succeeds when every dependency of every
iterated target is a known target. -/
theorem buildGraphAux_ok (targets : List (String × buildUnit)) :
    ∀ (l : List (String × buildUnit)) (g : List (String × List String))
      (i : List (String × Int)),
      (∀ p ∈ l, ∀ d ∈ p.2.dependencies, (alookup targets d).isSome) →
      ∃ gi, buildGraphAux targets l (g, i) = .ok gi := by
  intro l
  induction l with
  | nil =>
    intro g i _
    exact ⟨(g, i), rfl⟩
  | cons p rest ih =>
    intro g i hwf
    obtain ⟨n, t⟩ := p
    unfold buildGraphAux
    rcases addEdges_ok targets n t.dependencies g i
        (hwf (n, t) (List.mem_cons_self _ _)) with ⟨⟨g1, i1⟩, hae⟩
    rw [hae, except_bind_ok]
    exact ih g1 i1 (fun q hq => hwf q (List.mem_cons_of_mem _ hq))



/-- Effect of the relaxation loop on the in-degree table: each key is
decremented once per occurrence in the out-edge list. -/
theorem relax_inDeg (vs : List String) :
    ∀ (m : List (String × Int)) (q : List String) (w : String),
      alookup (relax vs m q).1 w = (alookup m w).map (fun c => c - (vs.count w : Int)) := by
  induction vs with
  | nil =>
    intro m q w
    simp only [relax]
    cases halg : alookup m w <;> simp
  | cons v vs ih =>
    intro m q w
    simp only [relax]
    rw [ih, alookup_adecr_all]
    by_cases hw : w = v
    · subst hw
      rw [if_pos rfl, List.count_cons_self]
      cases halg : alookup m w
      · rfl
      · simp only [Option.map_some']
        refine congrArg some ?_
        push_cast
        ring
    · rw [if_neg hw, List.count_cons_of_ne hw]

/-- Exact characterization of the names the relaxation loop enqueues:
when no in-degree can drop below zero, a name is enqueued exactly when it
occurs in the out-edge list and its whole in-degree is consumed by the
occurrences there. -/
theorem relax_queue (vs : List String) :
    ∀ (m : List (String × Int)) (q : List String),
      (∀ w c, alookup m w = some c → (vs.count w : Int) ≤ c) →
      ∃ nq, (relax vs m q).2 = q ++ nq ∧ nq.Nodup ∧
        ∀ w, (w ∈ nq ↔ w ∈ vs ∧ alookup m w = some (vs.count w : Int)) := by
  induction vs with
  | nil =>
    intro m q _
    exact ⟨[], by simp [relax], List.nodup_nil, fun w => by simp⟩
  | cons v vs ih =>
    intro m q H
    have H1 : ∀ w c, alookup (adecr m v) w = some c → (vs.count w : Int) ≤ c := by
      intro w c hc
      rw [alookup_adecr_all] at hc
      by_cases hw : w = v
      · subst hw
        rw [if_pos rfl] at hc
        cases halg : alookup m w with
        | none => rw [halg] at hc; exact Option.noConfusion hc
        | some c0 =>
          rw [halg] at hc
          simp only [Option.map_some'] at hc
          injection hc with hc
          have := H w c0 halg
          rw [List.count_cons_self] at this
          omega
      · rw [if_neg hw] at hc
        have := H w c hc
        rw [List.count_cons_of_ne hw] at this
        omega
    simp only [relax]
    by_cases hz : alookup (adecr m v) v = some 0
    · rw [if_pos hz]
      have hmv : alookup m v = some 1 := by
        rw [alookup_adecr_all, if_pos rfl] at hz
        cases halg : alookup m v with
        | none => rw [halg] at hz; exact Option.noConfusion hz
        | some c0 =>
          rw [halg] at hz
          simp only [Option.map_some'] at hz
          injection hz with hz
          exact congrArg some (by omega)
      have hcv : vs.count v = 0 := by
        have := H v 1 hmv
        rw [List.count_cons_self] at this
        omega
      rcases ih (adecr m v) (q ++ [v]) H1 with ⟨nq, heq, hnd, hiff⟩
      refine ⟨v :: nq, by rw [heq]; simp, ?_, ?_⟩
      · rw [List.nodup_cons]
        refine ⟨fun hvin => ?_, hnd⟩
        rcases (hiff v).mp hvin with ⟨hvvs, _⟩
        rw [List.count_eq_zero] at hcv
        exact hcv hvvs
      · intro w
        rw [List.mem_cons, hiff w]
        constructor
        · rintro (hw | ⟨hwvs, hwm⟩)
          · subst hw
            refine ⟨List.mem_cons_self _ _, ?_⟩
            rw [List.count_cons_self, hcv, hmv]
            norm_num
          · have hwv : w ≠ v := by
              intro he
              subst he
              rw [List.count_eq_zero] at hcv
              exact hcv hwvs
            rw [alookup_adecr_all, if_neg hwv] at hwm
            exact ⟨List.mem_cons_of_mem _ hwvs, by rw [List.count_cons_of_ne hwv]; exact hwm⟩
        · rintro ⟨hwvs, hwm⟩
          by_cases hwv : w = v
          · exact Or.inl hwv
          · right
            rw [List.count_cons_of_ne hwv] at hwm
            refine ⟨?_, ?_⟩
            · rcases List.mem_cons.mp hwvs with h | h
              · exact absurd h hwv
              · exact h
            · rw [alookup_adecr_all, if_neg hwv]
              exact hwm
    · rw [if_neg hz]
      rcases ih (adecr m v) q H1 with ⟨nq, heq, hnd, hiff⟩
      refine ⟨nq, heq, hnd, ?_⟩
      intro w
      rw [hiff w]
      by_cases hwv : w = v
      · subst hwv
        constructor
        · rintro ⟨hwvs, hwm⟩
          rw [alookup_adecr_all, if_pos rfl] at hwm
          cases halg : alookup m w with
          | none => rw [halg] at hwm; exact Option.noConfusion hwm
          | some c0 =>
            rw [halg] at hwm
            simp only [Option.map_some'] at hwm
            injection hwm with hwm
            refine ⟨List.mem_cons_self _ _, ?_⟩
            rw [List.count_cons_self]
            exact congrArg some (by push_cast; omega)
        · rintro ⟨hwvs, hwm⟩
          rw [List.count_cons_self] at hwm
          have hm1 : alookup (adecr m w) w = some ((vs.count w : Int)) := by
            rw [alookup_adecr_all, if_pos rfl, hwm]
            exact congrArg some (by push_cast; ring)
          have hpos : 0 < vs.count w := by
            rcases Nat.eq_zero_or_pos (vs.count w) with h0 | h
            · rw [h0] at hm1
              exact absurd (by simpa using hm1) hz
            · exact h
          exact ⟨List.count_pos_iff.mp hpos, hm1⟩
      · rw [alookup_adecr_all, if_neg hwv, List.count_cons_of_ne hwv]
        constructor
        · rintro ⟨hwvs, hwm⟩
          exact ⟨List.mem_cons_of_mem _ hwvs, hwm⟩
        · rintro ⟨hwvs, hwm⟩
          rcases List.mem_cons.mp hwvs with h | h
          · exact absurd h hwv
          · exact ⟨h, hwm⟩

/-- A count of one element is at most the count of elements outside an
order not containing it. -/
theorem count_le_countP (l : List String) (order : List String) (u : String)
    (hu : u ∉ order) : l.count u ≤ l.countP (fun d => decide (d ∉ order)) := by
  rw [List.count]
  refine List.countP_mono_left ?_
  intro a _ ha
  have : a = u := by simpa using ha
  subst this
  simpa using hu

/-- The Kahn loop never changes the key set of the in-degree table. -/
theorem kahnLoop_inDeg_keys (graph : List (String × List String)) :
    ∀ (queue : List String) (inDeg : List (String × Int)) (order : List String),
      (kahnLoop graph queue inDeg order).2.map Prod.fst = inDeg.map Prod.fst := by
  intro queue inDeg order
  induction queue, inDeg, order using kahnLoop.induct graph with
  | case1 inDeg order =>
    rw [kahnLoop]
  | case2 inDeg order u rest ih =>
    rw [kahnLoop]
    rw [ih, relax_keys]



theorem depsOf_eq_of_lookup {targets : List (String × buildUnit)} {v : String}
    {t : buildUnit} (h : alookup targets v = some t) :
    depsOf targets v = t.dependencies := by
  unfold depsOf
  rw [h]

theorem depsOf_eq_nil_of_none {targets : List (String × buildUnit)} {v : String}
    (h : alookup targets v = none) : depsOf targets v = [] := by
  unfold depsOf
  rw [h]

/-- The invariant carried through the Kahn queue loop: (1) each known
target's tabulated in-degree is the number of its dependency occurrences
not yet emitted into `order` (and unknown names have no entry); (2) no
name repeats across `order` and `queue`; (3) both hold only known target
names; (4) a known name outside `order` has in-degree zero exactly when
it sits in `queue`; (5) every emitted name's dependencies were emitted
strictly earlier; (6) every queued name's dependencies are all emitted. -/
def KState (targets : List (String × buildUnit)) (queue : List String)
    (inDeg : List (String × Int)) (order : List String) : Prop :=
  (∀ v, alookup inDeg v = (alookup targets v).map
      (fun _ => (((depsOf targets v).countP (fun d => decide (d ∉ order))) : Int))) ∧
  (order ++ queue).Nodup ∧
  (∀ v ∈ order ++ queue, (alookup targets v).isSome) ∧
  (∀ v, (alookup targets v).isSome → v ∉ order →
    (((depsOf targets v).countP (fun d => decide (d ∉ order)) = 0) ↔ v ∈ queue)) ∧
  (∀ pre n post, order = pre ++ n :: post → ∀ d ∈ depsOf targets n, d ∈ pre) ∧
  (∀ v ∈ queue, ∀ d ∈ depsOf targets v, d ∈ order)

/-- One step of the Kahn loop preserves the invariant. -/
theorem kahn_step (targets : List (String × buildUnit))
    (graph : List (String × List String))
    (HGC : ∀ u, (alookup targets u).isSome →
      ∀ w, ((alookup graph u).getD []).count w = (depsOf targets w).count u)
    (HGV : ∀ p ∈ graph, ∀ w ∈ p.2, (alookup targets w).isSome)
    (u : String) (rest : List String) (inDeg : List (String × Int)) (order : List String)
    (hK : KState targets (u :: rest) inDeg order) :
    KState targets (relax (sortStr ((alookup graph u).getD [])) inDeg rest).2
      (relax (sortStr ((alookup graph u).getD [])) inDeg rest).1 (order ++ [u]) := by
  obtain ⟨I1, I2, I3, I4, I5, I6⟩ := hK
  have I2' := I2
  rw [List.nodup_append] at I2'
  have hukey : (alookup targets u).isSome := I3 u (by simp)
  have hu_not_order : u ∉ order := fun hmem => I2'.2.2 hmem (List.mem_cons_self _ _)
  have hadjcount : ∀ w, (sortStr ((alookup graph u).getD [])).count w =
      (depsOf targets w).count u := by
    intro w
    have hperm := List.perm_insertionSort (fun a b => a ≤ b) ((alookup graph u).getD [])
    rw [sortStr, hperm.count_eq]
    exact HGC u hukey w
  have hadjkeys : ∀ w ∈ sortStr ((alookup graph u).getD []),
      (alookup targets w).isSome := by
    intro w hw
    have hperm := List.perm_insertionSort (fun a b => a ≤ b) ((alookup graph u).getD [])
    have hw2 : w ∈ (alookup graph u).getD [] := hperm.mem_iff.mp hw
    cases hl : alookup graph u with
    | none => rw [hl] at hw2; simp at hw2
    | some l0 =>
      rw [hl] at hw2
      exact HGV (u, l0) (alookup_mem hl) w hw2
  have Hrel : ∀ w c, alookup inDeg w = some c →
      (((sortStr ((alookup graph u).getD [])).count w : Int)) ≤ c := by
    intro w c hc
    rw [I1 w] at hc
    cases halg : alookup targets w with
    | none => rw [halg] at hc; exact Option.noConfusion hc
    | some t0 =>
      rw [halg] at hc
      simp only [Option.map_some'] at hc
      injection hc with hc
      rw [← hc, hadjcount w]
      exact_mod_cast count_le_countP (depsOf targets w) order u hu_not_order
  obtain ⟨nq, hq', hnqnd, hnqiff⟩ :=
    relax_queue (sortStr ((alookup graph u).getD [])) inDeg rest Hrel
  have hsplitC : ∀ v, (depsOf targets v).countP (fun d => decide (d ∉ order)) =
      (depsOf targets v).countP (fun d => decide (d ∉ order ++ [u])) +
        (depsOf targets v).count u :=
    fun v => countP_append_order (depsOf targets v) order u hu_not_order
  have I1n : ∀ v, alookup (relax (sortStr ((alookup graph u).getD [])) inDeg rest).1 v =
      (alookup targets v).map
        (fun _ => (((depsOf targets v).countP
          (fun d => decide (d ∉ order ++ [u]))) : Int)) := by
    intro v
    rw [relax_inDeg _ _ rest v, I1 v]
    cases halg : alookup targets v with
    | none => rfl
    | some t0 =>
      simp only [Option.map_some']
      refine congrArg some ?_
      rw [hadjcount v]
      have := hsplitC v
      omega
  have hnqchar : ∀ w ∈ nq, (alookup targets w).isSome ∧
      (depsOf targets w).countP (fun d => decide (d ∉ order)) =
        (depsOf targets w).count u ∧ 0 < (depsOf targets w).count u := by
    intro w hw
    rcases (hnqiff w).mp hw with ⟨hwadj, hwm⟩
    have hwkey := hadjkeys w hwadj
    rw [I1 w] at hwm
    obtain ⟨t0, ht0⟩ := Option.isSome_iff_exists.mp hwkey
    rw [ht0] at hwm
    simp only [Option.map_some'] at hwm
    injection hwm with hwm
    have hcnt : (depsOf targets w).countP (fun d => decide (d ∉ order)) =
        (sortStr ((alookup graph u).getD [])).count w := by exact_mod_cast hwm
    rw [hadjcount w] at hcnt
    have hpos : 0 < (depsOf targets w).count u := by
      rw [← hadjcount w]
      exact List.count_pos_iff.mpr hwadj
    exact ⟨hwkey, hcnt, hpos⟩
  have hnq_not_order : ∀ w ∈ nq, w ∉ order := by
    intro w hw hmem
    rcases hnqchar w hw with ⟨_, hcnt, hpos⟩
    rcases List.append_of_mem hmem with ⟨s, t, hst⟩
    have hdeps := I5 s w t hst
    have h0 : (depsOf targets w).countP (fun d => decide (d ∉ order)) = 0 := by
      rw [countP_eq_zero_iff]
      intro d hd
      rw [hst]
      exact List.mem_append.mpr (Or.inl (hdeps d hd))
    omega
  have hnq_not_queue : ∀ w ∈ nq, w ∉ u :: rest := by
    intro w hw hmem
    rcases hnqchar w hw with ⟨hwkey, hcnt, hpos⟩
    have h0 := (I4 w hwkey (hnq_not_order w hw)).mpr hmem
    omega
  have I2n : (((order ++ [u]) ++ (relax (sortStr ((alookup graph u).getD []))
      inDeg rest).2).Nodup) := by
    rw [hq', ← List.append_assoc, List.nodup_append]
    refine ⟨?_, hnqnd, ?_⟩
    · have : (order ++ [u]) ++ rest = order ++ u :: rest := by
        rw [List.append_assoc]
        rfl
      rw [this]
      exact I2
    · intro a ha hanq
      rcases List.mem_append.mp ha with h | h
      · rcases List.mem_append.mp h with h2 | h2
        · exact hnq_not_order a hanq h2
        · have : a = u := by simpa using h2
          exact hnq_not_queue a hanq (this ▸ List.mem_cons_self _ _)
      · exact hnq_not_queue a hanq (List.mem_cons_of_mem _ h)
  have I3n : ∀ v ∈ (order ++ [u]) ++ (relax (sortStr ((alookup graph u).getD []))
      inDeg rest).2, (alookup targets v).isSome := by
    intro v hv
    rw [hq'] at hv
    rcases List.mem_append.mp hv with h | h
    · rcases List.mem_append.mp h with h2 | h2
      · exact I3 v (List.mem_append.mpr (Or.inl h2))
      · have : v = u := by simpa using h2
        subst this
        exact hukey
    · rcases List.mem_append.mp h with h2 | h2
      · exact I3 v (List.mem_append.mpr (Or.inr (List.mem_cons_of_mem _ h2)))
      · exact (hnqchar v h2).1
  have I4n : ∀ v, (alookup targets v).isSome → v ∉ order ++ [u] →
      (((depsOf targets v).countP (fun d => decide (d ∉ order ++ [u])) = 0) ↔
        v ∈ (relax (sortStr ((alookup graph u).getD [])) inDeg rest).2) := by
    intro v hvkey hvno
    have hvnorder : v ∉ order := fun h => hvno (List.mem_append.mpr (Or.inl h))
    have hvnu : v ≠ u := fun h => hvno (List.mem_append.mpr (Or.inr (by simp [h])))
    rw [hq']
    constructor
    · intro h0
      have hsplit := hsplitC v
      by_cases hc : (depsOf targets v).count u = 0
      · have hz : (depsOf targets v).countP (fun d => decide (d ∉ order)) = 0 := by
          omega
        have hv := (I4 v hvkey hvnorder).mp hz
        rcases List.mem_cons.mp hv with h | h
        · exact absurd h hvnu
        · exact List.mem_append.mpr (Or.inl h)
      · have hvadj : v ∈ sortStr ((alookup graph u).getD []) := by
          rw [← List.count_pos_iff, hadjcount v]
          exact Nat.pos_of_ne_zero hc
        obtain ⟨t0, ht0⟩ := Option.isSome_iff_exists.mp hvkey
        have hmv : alookup inDeg v =
            some (((sortStr ((alookup graph u).getD [])).count v : Int)) := by
          rw [I1 v, ht0]
          simp only [Option.map_some']
          refine congrArg some ?_
          rw [hadjcount v]
          omega
        exact List.mem_append.mpr (Or.inr ((hnqiff v).mpr ⟨hvadj, hmv⟩))
    · intro hv
      have hsplit := hsplitC v
      rcases List.mem_append.mp hv with h | h
      · have := (I4 v hvkey hvnorder).mpr (List.mem_cons_of_mem _ h)
        omega
      · rcases hnqchar v h with ⟨_, hcnt, _⟩
        omega
  have I5n : ∀ pre n post, order ++ [u] = pre ++ n :: post →
      ∀ d ∈ depsOf targets n, d ∈ pre := by
    intro pre n post hsp d hd
    rcases append_singleton_split order u pre n post hsp with
      ⟨hpre, hnu, _⟩ | ⟨post', _, hord⟩
    · subst hnu
      rw [hpre]
      exact I6 n (List.mem_cons_self _ _) d hd
    · exact I5 pre n post' hord d hd
  have I6n : ∀ v ∈ (relax (sortStr ((alookup graph u).getD [])) inDeg rest).2,
      ∀ d ∈ depsOf targets v, d ∈ order ++ [u] := by
    intro v hv d hd
    rw [hq'] at hv
    rcases List.mem_append.mp hv with h | h
    · exact List.mem_append.mpr (Or.inl (I6 v (List.mem_cons_of_mem _ h) d hd))
    · rcases hnqchar v h with ⟨_, hcnt, _⟩
      have hsplit := hsplitC v
      have h0 : (depsOf targets v).countP (fun d => decide (d ∉ order ++ [u])) = 0 := by
        omega
      exact (countP_eq_zero_iff _ _).mp h0 d hd
  exact ⟨I1n, I2n, I3n, I4n, I5n, I6n⟩

/-- The Kahn loop drains the queue while preserving the invariant. -/
theorem kahnLoop_inv (targets : List (String × buildUnit))
    (graph : List (String × List String))
    (HGC : ∀ u, (alookup targets u).isSome →
      ∀ w, ((alookup graph u).getD []).count w = (depsOf targets w).count u)
    (HGV : ∀ p ∈ graph, ∀ w ∈ p.2, (alookup targets w).isSome) :
    ∀ (queue : List String) (inDeg : List (String × Int)) (order : List String),
      KState targets queue inDeg order →
      KState targets [] (kahnLoop graph queue inDeg order).2
        (kahnLoop graph queue inDeg order).1 := by
  intro queue inDeg order
  induction queue, inDeg, order using kahnLoop.induct graph with
  | case1 inDeg order =>
    intro hK
    rw [kahnLoop]
    exact hK
  | case2 inDeg order u rest ih =>
    intro hK
    rw [kahnLoop]
    exact ih (kahn_step targets graph HGC HGV u rest inDeg order hK)



/-- The constructed graph satisfies the counting characterization used by
the Kahn invariant. -/
theorem topo_graph_count (targets : List (String × buildUnit))
    (hnd : (targets.map Prod.fst).Nodup)
    (graph : List (String × List String)) (inDeg : List (String × Int))
    (hbg : buildGraphAux targets targets
      (targets.map (fun p => (p.1, ([] : List String))),
       targets.map (fun p => (p.1, (0 : Int)))) = .ok (graph, inDeg)) :
    ∀ u, (alookup targets u).isSome →
      ∀ w, ((alookup graph u).getD []).count w = (depsOf targets w).count u := by
  intro u hu w
  obtain ⟨t, ht⟩ := Option.isSome_iff_exists.mp hu
  have h0 : alookup (targets.map (fun p => (p.1, ([] : List String)))) u = some [] := by
    rw [alookup_map_const, ht]
    rfl
  rcases buildGraphAux_count targets targets _ _ graph inDeg hbg u (by rw [h0]; rfl) with
    ⟨hsome, hcount⟩
  rw [hcount w, h0]
  simp only [Option.getD_some, List.count_nil, Nat.zero_add]
  rw [sumOver_eq hnd]
  cases halg : alookup targets w with
  | none =>
    rw [depsOf_eq_nil_of_none halg]
    rfl
  | some t0 =>
    rw [depsOf_eq_of_lookup halg]
    rfl

/-- Adjacency lists of the constructed graph hold only known target
names. -/
theorem topo_graph_vals (targets : List (String × buildUnit))
    (graph : List (String × List String)) (inDeg : List (String × Int))
    (hbg : buildGraphAux targets targets
      (targets.map (fun p => (p.1, ([] : List String))),
       targets.map (fun p => (p.1, (0 : Int)))) = .ok (graph, inDeg)) :
    ∀ p ∈ graph, ∀ w ∈ p.2, (alookup targets w).isSome :=
  (buildGraphAux_inv targets (fun v => (alookup targets v).isSome)
    (fun p hp => alookup_isSome_of_mem_keys (List.mem_map.mpr ⟨p, hp, rfl⟩))
    targets _ _ graph inDeg (fun q hq => hq) hbg
    (by
      intro p hp v hv
      rcases List.mem_map.mp hp with ⟨q, _, heq⟩
      rw [← heq] at hv
      simp at hv)).1

/-- Key preservation through the graph construction. -/
theorem topo_inDeg_keys (targets : List (String × buildUnit))
    (graph : List (String × List String)) (inDeg : List (String × Int))
    (hbg : buildGraphAux targets targets
      (targets.map (fun p => (p.1, ([] : List String))),
       targets.map (fun p => (p.1, (0 : Int)))) = .ok (graph, inDeg)) :
    inDeg.map Prod.fst = targets.map Prod.fst := by
  have h := (buildGraphAux_inv targets (fun _ => True) (fun _ _ => trivial)
    targets _ _ graph inDeg (fun q hq => hq) hbg (fun _ _ _ _ => trivial)).2.2
  rw [h, List.map_map]
  rfl

/-- The invariant holds at the loop entry produced by
`topologicalSortTargets`. -/
theorem topo_initial_KState (targets : List (String × buildUnit))
    (hnd : (targets.map Prod.fst).Nodup)
    (graph : List (String × List String)) (inDeg : List (String × Int))
    (hbg : buildGraphAux targets targets
      (targets.map (fun p => (p.1, ([] : List String))),
       targets.map (fun p => (p.1, (0 : Int)))) = .ok (graph, inDeg)) :
    KState targets
      (sortStr ((inDeg.filter (fun p => decide (p.2 = 0))).map (·.1)))
      inDeg [] := by
  have hkeys := topo_inDeg_keys targets graph inDeg hbg
  have hIv : ∀ v, alookup inDeg v = (alookup targets v).map
      (fun t => ((t.dependencies.length : Nat) : Int)) := by
    intro v
    have h := buildGraphAux_inDeg targets targets _ _ graph inDeg hbg v
    rw [alookup_map_const] at h
    rw [h, sumOver_eq hnd]
    cases halg : alookup targets v with
    | none => rfl
    | some t0 => simp
  have hI1 : ∀ v, alookup inDeg v = (alookup targets v).map
      (fun _ => (((depsOf targets v).countP
        (fun d => decide (d ∉ ([] : List String)))) : Int)) := by
    intro v
    rw [hIv v]
    cases halg : alookup targets v with
    | none => rfl
    | some t0 =>
      simp only [Option.map_some']
      refine congrArg some ?_
      rw [countP_order_nil, depsOf_eq_of_lookup halg]
  have hqueue_mem : ∀ v, v ∈ sortStr ((inDeg.filter (fun p => decide (p.2 = 0))).map (·.1)) ↔
      alookup inDeg v = some 0 := by
    intro v
    have hperm := List.perm_insertionSort (fun a b => a ≤ b)
      ((inDeg.filter (fun p => decide (p.2 = 0))).map (·.1))
    rw [sortStr, hperm.mem_iff]
    constructor
    · intro hv
      rcases List.mem_map.mp hv with ⟨p, hp, heq⟩
      have hp2 : p.2 = 0 := by simpa using List.of_mem_filter hp
      have hpmem : p ∈ inDeg := List.mem_of_mem_filter hp
      have := alookup_of_mem_nodup (m := inDeg) (k := p.1) (v := p.2)
        (by exact hpmem) (by rw [hkeys]; exact hnd)
      rw [heq] at this
      rw [this, hp2]
    · intro hv
      have hmem : (v, (0 : Int)) ∈ inDeg := alookup_mem hv
      refine List.mem_map.mpr ⟨(v, 0), ?_, rfl⟩
      exact List.mem_filter.mpr ⟨hmem, by simp⟩
  have hnodq : (sortStr ((inDeg.filter (fun p => decide (p.2 = 0))).map (·.1))).Nodup := by
    have hperm := List.perm_insertionSort (fun a b => a ≤ b)
      ((inDeg.filter (fun p => decide (p.2 = 0))).map (·.1))
    rw [sortStr, hperm.nodup_iff]
    have hsub : List.Sublist ((inDeg.filter (fun p => decide (p.2 = 0))).map (·.1))
        (inDeg.map Prod.fst) := List.Sublist.map _ (List.filter_sublist inDeg)
    exact List.Nodup.sublist hsub (by rw [hkeys]; exact hnd)
  refine ⟨hI1, ?_, ?_, ?_, ?_, ?_⟩
  · simpa using hnodq
  · intro v hv
    simp only [List.nil_append] at hv
    have h0 := (hqueue_mem v).mp hv
    have : v ∈ inDeg.map Prod.fst := List.mem_map.mpr ⟨(v, 0), alookup_mem h0, rfl⟩
    rw [hkeys] at this
    exact alookup_isSome_of_mem_keys this
  · intro v hvkey _
    obtain ⟨t0, ht0⟩ := Option.isSome_iff_exists.mp hvkey
    rw [hqueue_mem v, hIv v, ht0]
    simp only [Option.map_some']
    rw [countP_order_nil, depsOf_eq_of_lookup ht0]
    constructor
    · intro h
      rw [h]
      rfl
    · intro h
      injection h with h
      exact_mod_cast h
  · intro pre n post h
    simp at h
  · intro v hv d hd
    have h0 := (hqueue_mem v).mp hv
    rw [hIv v] at h0
    cases halg : alookup targets v with
    | none => rw [halg] at h0; exact Option.noConfusion h0
    | some t0 =>
      rw [halg] at h0
      simp only [Option.map_some'] at h0
      injection h0 with h0
      have hlen : t0.dependencies.length = 0 := by exact_mod_cast h0
      rw [depsOf_eq_of_lookup halg, List.length_eq_zero.mp hlen] at hd
      simp at hd



/-- Iterate of a function (used to walk dependency successors). -/
def iterNext {α : Type} (f : α → α) (x : α) : Nat → α
  | 0 => x
  | k + 1 => f (iterNext f x k)

/-- Along a dependency chain inside the emitted order, positions strictly
decrease; in particular the order contains no node of a cycle. -/
theorem order_chain_lt (targets : List (String × buildUnit)) (order : List String)
    (hnd : order.Nodup)
    (I5 : ∀ pre n post, order = pre ++ n :: post → ∀ d ∈ depsOf targets n, d ∈ pre) :
    ∀ x y, Relation.TransGen (dependsOn targets) x y → x ∈ order →
      y ∈ order ∧ order.indexOf y < order.indexOf x := by
  have hstep : ∀ x y, dependsOn targets x y → x ∈ order →
      y ∈ order ∧ order.indexOf y < order.indexOf x := by
    intro x y hxy hx
    rcases List.append_of_mem hx with ⟨pre, post, hsp⟩
    have hy : y ∈ pre := I5 pre x post hsp y hxy
    have hnd2 := hnd
    rw [hsp, List.nodup_append] at hnd2
    have hxnpre : x ∉ pre := fun hxp => hnd2.2.2 hxp (List.mem_cons_self _ _)
    constructor
    · rw [hsp]
      exact List.mem_append.mpr (Or.inl hy)
    · rw [hsp, List.indexOf_append_of_mem hy, List.indexOf_append_of_not_mem hxnpre,
        List.indexOf_cons_self]
      have := List.indexOf_lt_length.mpr hy
      omega
  intro x y hxy
  induction hxy with
  | single h => exact fun hx => hstep _ _ h hx
  | tail hab hbc ih =>
    intro hx
    rcases ih hx with ⟨hb, hlt⟩
    rcases hstep _ _ hbc hb with ⟨hc, hlt2⟩
    exact ⟨hc, by omega⟩

/-- A finitely-carried set in which every element has a dependency
successor inside the set leads every element to a cycle. -/
theorem stuck_reaches_cycle (targets : List (String × buildUnit))
    (S : String → Prop) (keys : List String)
    (hSkeys : ∀ v, S v → v ∈ keys)
    (hsucc : ∀ v, S v → ∃ d, dependsOn targets v d ∧ S d) :
    ∀ n, S n → ∃ c, Relation.ReflTransGen (dependsOn targets) n c ∧
      Relation.TransGen (dependsOn targets) c c := by
  intro n hn
  classical
  choose f hf1 hf2 using hsucc
  let F : {v // S v} → {v // S v} := fun p => ⟨f p.1 p.2, hf2 p.1 p.2⟩
  let G : Nat → {v // S v} := iterNext F ⟨n, hn⟩
  have hGsucc : ∀ k, G (k + 1) = F (G k) := fun k => rfl
  have hchain : ∀ k, dependsOn targets (G k).1 (G (k + 1)).1 := by
    intro k
    rw [hGsucc k]
    exact hf1 (G k).1 (G k).2
  have hrtg : ∀ k, Relation.ReflTransGen (dependsOn targets) n (G k).1 := by
    intro k
    induction k with
    | zero => exact Relation.ReflTransGen.refl
    | succ k ih => exact Relation.ReflTransGen.tail ih (hchain k)
  have htg : ∀ i k, Relation.TransGen (dependsOn targets) (G i).1 (G (i + k + 1)).1 := by
    intro i k
    induction k with
    | zero => exact Relation.TransGen.single (hchain i)
    | succ k ih => exact Relation.TransGen.tail ih (hchain (i + k + 1))
  have hcard : (List.toFinset keys).card < (Finset.range (keys.length + 1)).card := by
    rw [Finset.card_range]
    exact Nat.lt_succ_of_le (List.toFinset_card_le keys)
  have hmaps : ∀ k ∈ Finset.range (keys.length + 1), (G k).1 ∈ keys.toFinset :=
    fun k _ => List.mem_toFinset.mpr (hSkeys (G k).1 (G k).2)
  obtain ⟨x, _, y, _, hxy, heq⟩ :=
    Finset.exists_ne_map_eq_of_card_lt_of_maps_to hcard hmaps
  have hmain : ∀ i j, i < j → (G i).1 = (G j).1 →
      ∃ c, Relation.ReflTransGen (dependsOn targets) n c ∧
        Relation.TransGen (dependsOn targets) c c := by
    intro i j hij hGij
    refine ⟨(G i).1, hrtg i, ?_⟩
    have h := htg i (j - i - 1)
    rw [show i + (j - i - 1) + 1 = j from by omega] at h
    rw [← hGij] at h
    exact h
  rcases Nat.lt_or_ge x y with hlt | hge
  · exact hmain x y hlt heq
  · exact hmain y x (by omega) heq.symm



/-- Full characterization of the cycle error of `topologicalSortTargets`:
under distinct target names and well-formed dependency lists, a cyclic
graph always fails with the sorted duplicate-free list of exactly those
targets that can reach a cycle along dependencies, and an acyclic graph
never produces a cycle error. -/
theorem topo_cycle_characterization (targets : List (String × buildUnit))
    (hnd : (targets.map Prod.fst).Nodup)
    (hwf : ∀ p ∈ targets, ∀ d ∈ p.2.dependencies, (alookup targets d).isSome) :
    ((∃ c, Relation.TransGen (dependsOn targets) c c) →
      ∃ L, topologicalSortTargets targets = .error (.cycle L) ∧
        L.Sorted (· ≤ ·) ∧ L.Nodup ∧
        ∀ n, (n ∈ L ↔ (alookup targets n).isSome ∧
          ∃ c, Relation.ReflTransGen (dependsOn targets) n c ∧
            Relation.TransGen (dependsOn targets) c c)) ∧
    ((¬ ∃ c, Relation.TransGen (dependsOn targets) c c) →
      ∀ L, topologicalSortTargets targets ≠ .error (.cycle L)) := by
  classical
  obtain ⟨⟨graph, inDeg⟩, hbg⟩ := buildGraphAux_ok targets targets
    (targets.map (fun p => (p.1, ([] : List String))))
    (targets.map (fun p => (p.1, (0 : Int)))) hwf
  have HGC := topo_graph_count targets hnd graph inDeg hbg
  have HGV := topo_graph_vals targets graph inDeg hbg
  have hK0 := topo_initial_KState targets hnd graph inDeg hbg
  have hKF := kahnLoop_inv targets graph HGC HGV
    (sortStr ((inDeg.filter (fun p => decide (p.2 = 0))).map (·.1))) inDeg [] hK0
  obtain ⟨orderF, inDegF, hkl⟩ : ∃ o i,
      kahnLoop graph (sortStr ((inDeg.filter (fun p => decide (p.2 = 0))).map (·.1)))
        inDeg [] = (o, i) := ⟨_, _, rfl⟩
  rw [hkl] at hKF
  dsimp only at hKF
  obtain ⟨F1, F2, F3, F4, F5, F6⟩ := hKF
  have hkeysF : inDegF.map Prod.fst = targets.map Prod.fst := by
    have h := kahnLoop_inDeg_keys graph
      (sortStr ((inDeg.filter (fun p => decide (p.2 = 0))).map (·.1))) inDeg []
    rw [hkl] at h
    rw [show inDegF = ((orderF, inDegF).2) from rfl, h]
    exact topo_inDeg_keys targets graph inDeg hbg
  have hunf : topologicalSortTargets targets =
      (if orderF.length = targets.length then .ok orderF
       else .error (.cycle (sortStr
         ((inDegF.filter (fun p => decide (0 < p.2))).map (·.1))))) := by
    unfold topologicalSortTargets
    dsimp only
    rw [hbg, except_bind_ok]
    dsimp only
    rw [hkl]
  have hordnd : orderF.Nodup := by simpa using F2
  have hordkeys : ∀ v ∈ orderF, (alookup targets v).isSome := by
    intro v hv
    exact F3 v (by simpa using hv)
  have hkey_mem : ∀ v, (alookup targets v).isSome → v ∈ targets.map Prod.fst := by
    intro v hv
    obtain ⟨t, ht⟩ := Option.isSome_iff_exists.mp hv
    exact List.mem_map.mpr ⟨(v, t), alookup_mem ht, rfl⟩
  have hord_count0 : ∀ v ∈ orderF,
      (depsOf targets v).countP (fun d => decide (d ∉ orderF)) = 0 := by
    intro v hv
    rcases List.append_of_mem hv with ⟨pre, post, hsp⟩
    rw [countP_eq_zero_iff]
    intro d hd
    rw [hsp]
    exact List.mem_append.mpr (Or.inl (F5 pre v post hsp d hd))
  have hstuck : ∀ v, (alookup targets v).isSome → v ∉ orderF →
      ∃ d, dependsOn targets v d ∧ (alookup targets d).isSome ∧ d ∉ orderF := by
    intro v hvkey hvno
    have h := F4 v hvkey hvno
    have hne : (depsOf targets v).countP (fun d => decide (d ∉ orderF)) ≠ 0 := by
      intro h0
      exact absurd (h.mp h0) (List.not_mem_nil v)
    rcases (countP_pos_iff _ _).mp (Nat.pos_of_ne_zero hne) with ⟨d, hd, hdno⟩
    obtain ⟨t, ht⟩ := Option.isSome_iff_exists.mp hvkey
    have hdmem : d ∈ t.dependencies := by
      rw [depsOf_eq_of_lookup ht] at hd
      exact hd
    exact ⟨d, hd, hwf (v, t) (alookup_mem ht) d hdmem, hdno⟩
  have hLemA := order_chain_lt targets orderF hordnd F5
  have hord_nocycle : ∀ n ∈ orderF,
      ¬∃ c, Relation.ReflTransGen (dependsOn targets) n c ∧
        Relation.TransGen (dependsOn targets) c c := by
    rintro n hn ⟨c, hrt, htc⟩
    have hcord : c ∈ orderF := by
      rcases Relation.reflTransGen_iff_eq_or_transGen.mp hrt with he | ht2
      · rw [he]
        exact hn
      · exact (hLemA n c ht2 hn).1
    have := (hLemA c c htc hcord).2
    omega
  have hstuck_cycle : ∀ n, (alookup targets n).isSome → n ∉ orderF →
      ∃ c, Relation.ReflTransGen (dependsOn targets) n c ∧
        Relation.TransGen (dependsOn targets) c c := by
    intro n hnkey hnno
    exact stuck_reaches_cycle targets
      (fun v => (alookup targets v).isSome ∧ v ∉ orderF)
      (targets.map Prod.fst)
      (fun v hv => hkey_mem v hv.1)
      (fun v hv => by
        rcases hstuck v hv.1 hv.2 with ⟨d, hd1, hd2, hd3⟩
        exact ⟨d, hd1, hd2, hd3⟩)
      n ⟨hnkey, hnno⟩
  have hEmem : ∀ v, v ∈ sortStr ((inDegF.filter (fun p => decide (0 < p.2))).map (·.1)) ↔
      ((alookup targets v).isSome ∧ v ∉ orderF) := by
    intro v
    have hperm := List.perm_insertionSort (fun a b => a ≤ b)
      ((inDegF.filter (fun p => decide (0 < p.2))).map (·.1))
    rw [sortStr, hperm.mem_iff]
    constructor
    · intro hv
      rcases List.mem_map.mp hv with ⟨p, hp, hpe⟩
      have hp2 : (0 : Int) < p.2 := by simpa using List.of_mem_filter hp
      have hpal : alookup inDegF p.1 = some p.2 :=
        alookup_of_mem_nodup (List.mem_of_mem_filter hp) (by rw [hkeysF]; exact hnd)
      rw [F1 p.1] at hpal
      cases halg : alookup targets p.1 with
      | none =>
        rw [halg] at hpal
        exact Option.noConfusion hpal
      | some t =>
        rw [halg] at hpal
        simp only [Option.map_some'] at hpal
        injection hpal with hpal
        have hcp : 0 < (depsOf targets p.1).countP (fun d => decide (d ∉ orderF)) := by
          omega
        subst hpe
        refine ⟨by rw [halg]; rfl, fun hmem => ?_⟩
        have := hord_count0 p.1 hmem
        omega
    · rintro ⟨hvkey, hvno⟩
      have hne : (depsOf targets v).countP (fun d => decide (d ∉ orderF)) ≠ 0 := by
        intro h0
        exact absurd ((F4 v hvkey hvno).mp h0) (List.not_mem_nil v)
      obtain ⟨t, ht⟩ := Option.isSome_iff_exists.mp hvkey
      have hval : alookup inDegF v =
          some (((depsOf targets v).countP (fun d => decide (d ∉ orderF)) : Int)) := by
        rw [F1 v, ht]
        rfl
      refine List.mem_map.mpr ⟨(v, (((depsOf targets v).countP
        (fun d => decide (d ∉ orderF)) : Int))), ?_, rfl⟩
      refine List.mem_filter.mpr ⟨alookup_mem hval, ?_⟩
      simp only [decide_eq_true_eq]
      exact_mod_cast Nat.pos_of_ne_zero hne
  have hsubp : orderF.Subperm (targets.map Prod.fst) :=
    List.subperm_of_subset hordnd (fun v hv => hkey_mem v (hordkeys v hv))
  have hlen_iff : orderF.length = targets.length ↔
      ∀ v ∈ targets.map Prod.fst, v ∈ orderF := by
    constructor
    · intro hl v hv
      have hperm := hsubp.perm_of_length_le (by rw [List.length_map]; omega)
      exact hperm.symm.subset hv
    · intro hall
      have hsubp2 := List.subperm_of_subset hnd (fun v hv => hall v hv)
      have h1 := hsubp.length_le
      have h2 := hsubp2.length_le
      rw [List.length_map] at h1 h2
      omega
  have hEnodup : (sortStr ((inDegF.filter (fun p => decide (0 < p.2))).map (·.1))).Nodup := by
    have hperm := List.perm_insertionSort (fun a b => a ≤ b)
      ((inDegF.filter (fun p => decide (0 < p.2))).map (·.1))
    rw [sortStr, hperm.nodup_iff]
    have hsub : List.Sublist ((inDegF.filter (fun p => decide (0 < p.2))).map (·.1))
        (inDegF.map Prod.fst) := List.Sublist.map _ (List.filter_sublist inDegF)
    exact List.Nodup.sublist hsub (by rw [hkeysF]; exact hnd)
  constructor
  · rintro ⟨c, hc⟩
    have hckey : (alookup targets c).isSome := by
      rcases Relation.TransGen.head'_iff.mp hc with ⟨b, hcb, _⟩
      unfold dependsOn at hcb
      cases halg : alookup targets c with
      | none =>
        rw [depsOf_eq_nil_of_none halg] at hcb
        simp at hcb
      | some t => rfl
    have hcno : c ∉ orderF :=
      fun hmem => hord_nocycle c hmem ⟨c, Relation.ReflTransGen.refl, hc⟩
    have hlenne : orderF.length ≠ targets.length := by
      intro hl
      exact hcno (hlen_iff.mp hl c (hkey_mem c hckey))
    refine ⟨_, by rw [hunf, if_neg hlenne], ?_, hEnodup, ?_⟩
    · exact List.sorted_insertionSort _ _
    · intro n
      rw [hEmem n]
      constructor
      · rintro ⟨hnkey, hnno⟩
        exact ⟨hnkey, hstuck_cycle n hnkey hnno⟩
      · rintro ⟨hnkey, hcyc⟩
        refine ⟨hnkey, fun hmem => hord_nocycle n hmem hcyc⟩
  · rintro hnc L hL
    rw [hunf] at hL
    by_cases hl : orderF.length = targets.length
    · rw [if_pos hl] at hL
      exact Except.noConfusion hL
    · have hnall : ¬∀ v ∈ targets.map Prod.fst, v ∈ orderF :=
        fun h => hl (hlen_iff.mpr h)
      push_neg at hnall
      obtain ⟨v, hvk, hvno⟩ := hnall
      rcases hstuck_cycle v (alookup_isSome_of_mem_keys hvk) hvno with ⟨c, _, htc⟩
      exact hnc ⟨c, htc⟩



/-- A three-target graph: `a` and `b` depend on each other (a cycle) and
`c` depends on `a` (a dependent of the cycle that lies on no cycle). -/
def cexTargets : List (String × buildUnit) :=
  [("a", ⟨"a", true, [], ["b"], [], [], ""⟩),
   ("b", ⟨"b", true, [], ["a"], [], [], ""⟩),
   ("c", ⟨"c", false, [], ["a"], [], [], ""⟩)]

theorem cex_topo_eval :
    topologicalSortTargets cexTargets = .error (.cycle ["a", "b", "c"]) := by
  unfold topologicalSortTargets
  dsimp only
  have hbg : buildGraphAux cexTargets cexTargets
      (List.map (fun p => (p.1, ([] : List String))) cexTargets,
       List.map (fun p => (p.1, (0 : Int))) cexTargets) =
      .ok ([("a", ["b", "c"]), ("b", ["a"]), ("c", [])],
           [("a", (1 : Int)), ("b", 1), ("c", 1)]) := by rfl
  rw [hbg, except_bind_ok]
  dsimp only
  have hq : sortStr (List.map (fun x => x.1)
      (List.filter (fun p => decide (p.2 = 0))
        [("a", (1 : Int)), ("b", 1), ("c", 1)])) = [] := by rfl
  rw [hq]
  have hk : kahnLoop [("a", ["b", "c"]), ("b", ["a"]), ("c", [])] []
      [("a", (1 : Int)), ("b", 1), ("c", 1)] [] =
      ([], [("a", (1 : Int)), ("b", 1), ("c", 1)]) := by
    rw [kahnLoop]
  rw [hk]
  dsimp only
  have hlen : ¬ (([] : List String).length = cexTargets.length) := by decide
  rw [if_neg hlen]
  have h1 : (['b'] : List Char) ≤ ['c'] := by decide
  have h2 : (['a'] : List Char) ≤ ['b'] := by decide
  simp [sortStr, List.insertionSort, List.orderedInsert, h1, h2]

theorem cex_no_cycle_c : ¬ Relation.TransGen (dependsOn cexTargets) "c" "c" := by
  intro h
  rcases Relation.TransGen.tail'_iff.mp h with ⟨z, _, hz⟩
  unfold dependsOn at hz
  cases halg : alookup cexTargets z with
  | none =>
    rw [depsOf_eq_nil_of_none halg] at hz
    simp at hz
  | some t =>
    rw [depsOf_eq_of_lookup halg] at hz
    have hmem := alookup_mem halg
    rcases List.mem_cons.mp hmem with h1 | hmem
    · injection h1 with h1a h1b
      subst h1b
      simp at hz
    rcases List.mem_cons.mp hmem with h1 | hmem
    · injection h1 with h1a h1b
      subst h1b
      simp at hz
    rcases List.mem_cons.mp hmem with h1 | hmem
    · injection h1 with h1a h1b
      subst h1b
      simp at hz
    · simp at hmem

/-- C6 counterexample: in the three-target graph where `a` and `b` depend
on each other and `c` depends on `a`, the cycle error also lists `c`,
although `c` lies on no cycle — the error does not list exactly the nodes
lying on a cycle. -/
theorem cycle_error_lists_noncycle_node :
    topologicalSortTargets cexTargets = .error (.cycle ["a", "b", "c"]) ∧
      ¬ Relation.TransGen (dependsOn cexTargets) "c" "c" :=
  ⟨cex_topo_eval, cex_no_cycle_c⟩

/-- C6 (corrected): for a target map with distinct names whose
dependencies all exist, a cyclic dependency graph always makes
`topologicalSortTargets` fail with a `.cycle` error whose sorted,
duplicate-free list contains exactly the targets from which a cycle is
reachable along dependency edges (the cycle nodes together with all of
their transitive dependents, not only the nodes lying on a cycle), and
`Invoke` propagates this error without attempting any build; an acyclic
graph never produces the cycle error. -/
theorem cycle_error_characterization (targets : List (String × buildUnit))
    (hnd : (targets.map Prod.fst).Nodup)
    (hwf : ∀ p ∈ targets, ∀ d ∈ p.2.dependencies, (alookup targets d).isSome) :
    ((∃ c, Relation.TransGen (dependsOn targets) c c) →
      ∃ L, topologicalSortTargets targets = .error (.cycle L) ∧
        L.Sorted (· ≤ ·) ∧ L.Nodup ∧
        (∀ n, (n ∈ L ↔ (alookup targets n).isSome ∧
          ∃ c, Relation.ReflTransGen (dependsOn targets) n c ∧
            Relation.TransGen (dependsOn targets) c c)) ∧
        (∀ cc cxx buildDir stateFile fs execOk saveOk,
          (invokeModel cc cxx buildDir targets stateFile fs execOk saveOk).1 =
            .error (renderTopoError (.cycle L)))) ∧
    ((¬ ∃ c, Relation.TransGen (dependsOn targets) c c) →
      ∀ L, topologicalSortTargets targets ≠ .error (.cycle L)) := by
  obtain ⟨h1, h2⟩ := topo_cycle_characterization targets hnd hwf
  refine ⟨?_, h2⟩
  intro hcyc
  obtain ⟨L, hL, hsorted, hLnd, hmem⟩ := h1 hcyc
  refine ⟨L, hL, hsorted, hLnd, hmem, ?_⟩
  intro cc cxx buildDir stateFile fs execOk saveOk
  unfold invokeModel
  rw [hL]

/-- Witness for C6 at the concrete cyclic graph `cexTargets`: the
characterization applies, with its hypotheses discharged by computation
and an explicit two-step cycle through `a` and `b`. -/
theorem cycle_error_characterization_witness :
    ∃ L, topologicalSortTargets cexTargets = .error (.cycle L) ∧
      L.Sorted (· ≤ ·) ∧ L.Nodup ∧
      (∀ n, (n ∈ L ↔ (alookup cexTargets n).isSome ∧
        ∃ c, Relation.ReflTransGen (dependsOn cexTargets) n c ∧
          Relation.TransGen (dependsOn cexTargets) c c)) ∧
      (∀ cc cxx buildDir stateFile fs execOk saveOk,
        (invokeModel cc cxx buildDir cexTargets stateFile fs execOk saveOk).1 =
          .error (renderTopoError (.cycle L))) :=
  (cycle_error_characterization cexTargets (by decide) (by decide)).1
    ⟨"a", Relation.TransGen.tail
      (Relation.TransGen.single (show "b" ∈ depsOf cexTargets "a" by decide))
      (show "a" ∈ depsOf cexTargets "b" by decide)⟩


end Qobs
